import Mathlib

set_option autoImplicit false

/-!
# Verification of the hosting-platform dynamic inventory script

Shallow embedding of `src/ansible/inventory/hosting.py` and proofs about it.
The script has four parts, each embedded below from the source:

* `api_get` — cursor-paginated GET loop (`apiGet` below);
* `get_static_inventory` — line-oriented INI-like parser (`getStaticInventory`);
* `build_inventory` — region → cluster → node walk merged with the static
  file (`buildInventory`);
* `main` — CLI flag dispatch and JSON serialization (`mainOutput`).

Python `dict`s are modelled as association lists with Python's
insertion-order update semantics (`dget` / `dset`); Python `set`s by lists
with membership; machine-level concerns (actual sockets, file descriptors)
are abstracted into the response/line sequences the code consumes.
-/

namespace Hosting

/-! ## Python dict model -/
/-- Lookup `d.get(k)` in an association list modelling a Python `dict`.
The embedding only ever produces lists whose keys are unique, and the
first binding wins. -/
def dget {β : Type} (d : List (String × β)) (k : String) : Option β :=
  match d with
  | [] => none
  | (k', v) :: rest => if k' = k then some v else dget rest k

/-- Assignment `d[k] = v` on a Python `dict`: an existing key keeps its
position and gets the new value, a new key is appended at the end
(Python 3.7+ insertion order). -/
def dset {β : Type} (d : List (String × β)) (k : String) (v : β) : List (String × β) :=
  match d with
  | [] => [(k, v)]
  | (k', v') :: rest => if k' = k then (k', v) :: rest else (k', v') :: dset rest k v

/-! ## Paginated fetcher: `api_get` -/
/-- One parsed JSON page of a paginated response, with the defaults of
`data.get("items", [])`, `data.get("has_more", False)` and
`data.get("next_cursor", "")` already applied: an absent field is
represented by its default value. -/
structure Page (α : Type) where
  items : List α
  has_more : Bool
  next_cursor : String

/-- Outcome of one `urllib.request.urlopen` call inside `api_get`: either a
transport-level error (`URLError`, `HTTPError`, `OSError` — also covering a
non-2xx status, which `urlopen` raises as `HTTPError`) or a well-formed
JSON page. -/
inductive Resp (α : Type) where
  | err : Resp α
  | ok : Page α → Resp α

/-- The `while True` loop of `api_get`, driven by the list of responses the
server gives to the successive requests the loop issues.  Returns the
collected `items` together with the number of requests issued; `none` when
the loop would issue a request for which no response is supplied (outside
the modelled domain).  Mirrors the source: a transport error returns `[]`
at once, discarding `acc`; a page's items are appended; the loop breaks
when `has_more` is falsy and otherwise when `next_cursor` is falsy. -/
def apiGetAux {α : Type} : List (Resp α) → List α → Option (List α × Nat)
  | [], _ => none
  | Resp.err :: _, _ => some ([], 1)
  | Resp.ok p :: rest, acc =>
    let acc' := acc ++ p.items
    if p.has_more = false then some (acc', 1)
    else if p.next_cursor = "" then some (acc', 1)
    else
      match apiGetAux rest acc' with
      | none => none
      | some (items, n) => some (items, n + 1)

/-- Embedding of `api_get(path)` as a function of the server's successive responses. -/
def apiGet {α : Type} (rs : List (Resp α)) : Option (List α × Nat) :=
  apiGetAux rs []

/-- A page is non-terminal when the loop continues past it: `has_more` is
true and `next_cursor` is non-empty. -/
def nonterminal {α : Type} (p : Page α) : Prop :=
  p.has_more = true ∧ p.next_cursor ≠ ""

/-! ## Data model of the API walk

`build_inventory` consumes the results of three `api_get` families:
`/regions`, `/regions/{id}/clusters` and `/clusters/{id}/nodes`.  The
record `Api` packages those already-fetched JSON results (each endpoint's
concatenated `items`), the node/shard objects carrying the `.get` defaults
of the source: an absent field is represented by its default value. -/
/-- One entry of a node's `shards` list, as read by the source with
`s.get("shard_id", "")`, `s.get("shard_role", "")`, `s.get("shard_index", 0)`. -/
structure Shard where
  shard_id : String
  shard_role : String
  shard_index : Int
deriving DecidableEq

/-- A node object: `node.get("hostname", "")`, `node.get("ip_address", "")`,
`node.get("id", "")`, `node.get("roles", [])`, `node.get("status", "")`,
`node.get("shards", [])`. -/
structure NodeObj where
  hostname : String
  ip_address : String
  id : String
  roles : List String
  status : String
  shards : List Shard
deriving DecidableEq

/-- A region object; only `region["id"]` is read (string-rendered, as it is
only used inside f-strings and URL paths). -/
structure RegionObj where
  id : String
deriving DecidableEq

/-- A cluster object; only `cluster["id"]` is read. -/
structure ClusterObj where
  id : String
deriving DecidableEq

/-- The already-fetched API results: `regions` is `api_get("/regions")`,
`clusters rid` is `api_get("/regions/{rid}/clusters")` and `nodes cid` is
`api_get("/clusters/{cid}/nodes")`. -/
structure Api where
  regions : List RegionObj
  clusters : String → List ClusterObj
  nodes : String → List NodeObj

/-- The module-level `ROLE_MAP` table. -/
def ROLE_MAP : List (String × String) :=
  [("web", "web"), ("database", "db"), ("dns", "dns"), ("valkey", "valkey"),
   ("email", "email"), ("storage", "storage"), ("s3", "storage"),
   ("dbadmin", "dbadmin"), ("lb", "lb")]

/-- Resolution `ROLE_MAP.get(role, role)`: the group a role tag lands in. -/
def roleGroup (role : String) : String :=
  (dget ROLE_MAP role).getD role

/-- The hostvars record built for an API-sourced host (the dict literal at
the `inventory["_meta"]["hostvars"][hostname] = ...` assignment). -/
structure ApiVars where
  ansible_host : String
  node_id : String
  cluster_id : String
  region_id : String
  node_roles : List String
  node_status : String
  shard_assignments : List Shard
deriving DecidableEq

/-- A `_meta.hostvars` value: either the API-sourced record or the
string-valued dict parsed from the static file. -/
inductive HostVarsV where
  | api : ApiVars → HostVarsV
  | static : List (String × String) → HostVarsV
deriving DecidableEq

/-- The `inventory` dict, split into its `_meta.hostvars` sub-dict and the
group entries (every key other than `"_meta"`, each holding a `hosts`
list).  The reserved key `"_meta"` itself never appears in `groups`. -/
structure Inv where
  hostvars : List (String × HostVarsV)
  groups : List (String × List String)
deriving DecidableEq

/-- The builder state: the inventory under construction plus the
`api_hostnames` set (modelled as a list, membership only). -/
structure BState where
  inv : Inv
  api_hostnames : List String
deriving DecidableEq

/-- The pattern `if group not in inventory: inventory[group] = {"hosts": []}` followed
by an unconditional `inventory[group]["hosts"].append(hostname)` (the
region/cluster-group pattern of the source, which has no membership
check). -/
def groupAppendU (gs : List (String × List String)) (g h : String) :
    List (String × List String) :=
  match dget gs g with
  | none => dset gs g [h]
  | some l => dset gs g (l ++ [h])

/-- Same, but with the `if hostname not in inventory[group]["hosts"]`
membership check of the role-group and static-merge code paths. -/
def groupAppendC (gs : List (String × List String)) (g h : String) :
    List (String × List String) :=
  match dget gs g with
  | none => dset gs g [h]
  | some l => if h ∈ l then gs else dset gs g (l ++ [h])

/-- Error-propagating left fold; `none` models an uncaught Python
exception aborting `build_inventory`. -/
def foldE {σ α : Type} (f : σ → α → Option σ) : σ → List α → Option σ
  | s, [] => some s
  | s, a :: l =>
    match f s a with
    | none => none
    | some s' => foldE f s' l

/-- One role-group insertion for hostname `h`.  When the resolved group
name is the reserved key `"_meta"`, the source's
`inventory[group]["hosts"]` raises `KeyError` (the `"_meta"` entry has no
`"hosts"` key), modelled as `none`. -/
def addRoleStep (h : String) (gs : List (String × List String)) (role : String) :
    Option (List (String × List String)) :=
  let g := roleGroup role
  if g = "_meta" then none else some (groupAppendC gs g h)

/-- The hostvars record the source builds for node `n` in cluster `cid` of
region `rid`. -/
def apiVarsOf (rid cid : String) (n : NodeObj) : ApiVars :=
  ⟨n.ip_address, n.id, cid, rid, n.roles, n.status, n.shards⟩

/-- A node survives the `if not hostname or not ip: continue` guard. -/
def validNode (n : NodeObj) : Prop :=
  n.hostname ≠ "" ∧ n.ip_address ≠ ""

instance (n : NodeObj) : Decidable (validNode n) :=
  inferInstanceAs (Decidable (_ ∧ _))

/-- The body of the innermost `for node in nodes` loop: skip the node when
hostname or IP is falsy; otherwise record the hostname in `api_hostnames`,
set its hostvars entry, append it (unchecked) to the `region_{id}` and
`cluster_{id}` groups, and fold the role-group insertions. -/
def processNode (rid cid : String) (st : BState) (n : NodeObj) : Option BState :=
  if n.hostname = "" ∨ n.ip_address = "" then some st
  else
    match foldE (addRoleStep n.hostname)
        (groupAppendU (groupAppendU st.inv.groups ("region_" ++ rid) n.hostname)
          ("cluster_" ++ cid) n.hostname) n.roles with
    | none => none
    | some gs3 =>
      some ⟨⟨dset st.inv.hostvars n.hostname (HostVarsV.api (apiVarsOf rid cid n)), gs3⟩,
        n.hostname :: st.api_hostnames⟩

/-- The `for cluster in clusters` loop body: fetches
`/clusters/{cluster_id}/nodes` and folds the node loop. -/
def processCluster (api : Api) (rid : String) (st : BState) (c : ClusterObj) :
    Option BState :=
  foldE (processNode rid c.id) st (api.nodes c.id)

/-- The `for region in regions` loop body: fetches
`/regions/{region_id}/clusters` and folds the cluster loop. -/
def processRegion (api : Api) (st : BState) (r : RegionObj) : Option BState :=
  foldE (processCluster api r.id) st (api.clusters r.id)

/-- The initial state: `inventory = {"_meta": {"hostvars": {}}}` and an
empty `api_hostnames` set. -/
def initState : BState := ⟨⟨[], []⟩, []⟩

/-- The whole API phase of `build_inventory`. -/
def apiWalk (api : Api) : Option BState :=
  foldE (processRegion api) initState api.regions

/-- One `for hostname in hosts` step of the static merge.  A hostname
already seen from the API is skipped entirely; a static group named
`"_meta"` makes `inventory[group]["hosts"]` raise `KeyError` (modelled as
`none`); otherwise the hostname is appended with a membership check and,
when the static file parsed variables for it, they become its hostvars
entry. -/
def staticHostStep (sv : List (String × List (String × String))) (g : String)
    (st : BState) (h : String) : Option BState :=
  if h ∈ st.api_hostnames then some st
  else if g = "_meta" then none
  else
    some ⟨⟨match dget sv h with
           | some v => dset st.inv.hostvars h (HostVarsV.static v)
           | none => st.inv.hostvars,
           groupAppendC st.inv.groups g h⟩, st.api_hostnames⟩

/-- The `for group, hosts in static_groups.items()` double loop. -/
def mergeStatic (sg : List (String × List String))
    (sv : List (String × List (String × String))) (st : BState) : Option BState :=
  foldE (fun st' p => foldE (staticHostStep sv p.1) st' p.2) st sg

/-- Embedding of `build_inventory()` as a function of the fetched API results and the
parsed static file (`static_groups`, `static_hostvars`).  `none` models an
uncaught exception. -/
def buildInventory (api : Api) (sg : List (String × List String))
    (sv : List (String × List (String × String))) : Option Inv :=
  (apiWalk api).bind fun st => (mergeStatic sg sv st).map fun st' => st'.inv

/-- The walk order flattened: every `(region_id, cluster_id, node)`
occurrence of the nested loops, in traversal order. -/
def occs (api : Api) : List (String × String × NodeObj) :=
  api.regions.flatMap fun r =>
    (api.clusters r.id).flatMap fun c =>
      (api.nodes c.id).map fun n => (r.id, c.id, n)

/-- The node-loop body, uncurried over a flattened occurrence. -/
def nodeStep (st : BState) (o : String × String × NodeObj) : Option BState :=
  processNode o.1 o.2.1 st o.2.2

/-- Hostname `h` is listed in group `g`. -/
def memGroup (gs : List (String × List String)) (g h : String) : Prop :=
  ∃ l, dget gs g = some l ∧ h ∈ l

instance (gs : List (String × List String)) (g h : String) :
    Decidable (memGroup gs g h) := by
  unfold memGroup
  cases dget gs g with
  | none => exact isFalse (by simp)
  | some l => exact decidable_of_iff (h ∈ l) (by simp)

/-- Every group's hosts list contains `h` at most once. -/
def atMostOnce (h : String) (gs : List (String × List String)) : Prop :=
  ∀ g l, dget gs g = some l → l.count h ≤ 1

/-- Hostname `h` is in no group's hosts list. -/
def absentAll (h : String) (gs : List (String × List String)) : Prop :=
  ∀ g, ¬ memGroup gs g h

/-- Hostnames of the valid node occurrences of a walk fragment, in
traversal order. -/
def validHostnames (l : List (String × String × NodeObj)) : List String :=
  (l.filter (fun o => decide (validNode o.2.2))).map (fun o => o.2.2.hostname)

/-- All group lists are duplicate-free with members drawn from `S`. -/
def groupsBounded (S : List String) (gs : List (String × List String)) : Prop :=
  ∀ g l, dget gs g = some l → l.Nodup ∧ ∀ x ∈ l, x ∈ S

/-! ## Static source parser: `get_static_inventory` -/
/-- Python's `str.strip()` / `str.split()` whitespace set. -/
def isPySpace (c : Char) : Bool :=
  c = ' ' || c = '\t' || c = '\n' || c = '\r' || c = '\x0b' || c = '\x0c'

/-- Python `line.strip()`. -/
def pyStrip (s : String) : String :=
  String.mk (((s.data.dropWhile isPySpace).reverse.dropWhile isPySpace).reverse)

/-- Helper for Python `line.split()`: `acc` holds the reversed current
token. -/
def pyWordsAux : List Char → List Char → List String
  | [], [] => []
  | [], acc => [String.mk acc.reverse]
  | c :: cs, acc =>
    if isPySpace c then
      match acc with
      | [] => pyWordsAux cs []
      | _ :: _ => String.mk acc.reverse :: pyWordsAux cs []
    else pyWordsAux cs (c :: acc)

/-- Python `line.split()`: whitespace-separated tokens, no empty tokens. -/
def pyWords (s : String) : List String :=
  pyWordsAux s.data []

/-- Combined `"=" in part` test and `part.split("=", 1)`: `none` when the token
has no `=`, otherwise the text before the first `=` and everything after
it. -/
def splitEq1 : List Char → Option (List Char × List Char)
  | [] => none
  | c :: cs =>
    if c = '=' then some ([], cs)
    else
      match splitEq1 cs with
      | none => none
      | some (a, b) => some (c :: a, b)

/-- Parser state: the `groups` and `hostvars` dicts plus the
`current_group` variable (`none` before any header line). -/
structure PState where
  groups : List (String × List String)
  hostvars : List (String × List (String × String))
  current : Option String
deriving DecidableEq

/-- One `for part in parts[1:]` iteration: a `key=value` token is recorded
into the hostname's variable dict (created on first use); a token without
`=` records nothing. -/
def varStep (hostname : String) (hv : List (String × List (String × String)))
    (part : String) : List (String × List (String × String)) :=
  match splitEq1 part.data with
  | none => hv
  | some (k, v) =>
    dset hv hostname (dset ((dget hv hostname).getD []) (String.mk k) (String.mk v))

/-- One `for line in f` iteration of `get_static_inventory`: strip, skip
blank and `#`/`;` comment lines, open a group on `[name]`, and otherwise —
only when a group with a truthy name is current — record the first token
as a hostname of the current group and parse the remaining tokens as
variables. -/
def stepLine (st : PState) (raw : String) : PState :=
  match (pyStrip raw).data with
  | [] => st
  | c :: cs =>
    if c = '#' then st
    else if c = ';' then st
    else if c = '[' ∧ (c :: cs).getLast? = some ']' then
      match dget st.groups (String.mk cs.dropLast) with
      | none => ⟨dset st.groups (String.mk cs.dropLast) [], st.hostvars,
          some (String.mk cs.dropLast)⟩
      | some _ => ⟨st.groups, st.hostvars, some (String.mk cs.dropLast)⟩
    else
      match st.current with
      | none => st
      | some g =>
        if g = "" then st
        else
          match pyWords (pyStrip raw) with
          | [] => st
          | hostname :: rest =>
            ⟨dset st.groups g ((dget st.groups g).getD [] ++ [hostname]),
              rest.foldl (varStep hostname) st.hostvars, st.current⟩

/-- Embedding of `get_static_inventory()`: `none` models a missing `static.ini` (the
`os.path.exists` guard), `some lines` the file's lines. -/
def getStaticInventory (file : Option (List String)) :
    List (String × List String) × List (String × List (String × String)) :=
  match file with
  | none => ([], [])
  | some lines =>
    ((lines.foldl stepLine ⟨[], [], none⟩).groups,
      (lines.foldl stepLine ⟨[], [], none⟩).hostvars)

/-- A line whose stripped form is `[...]`, i.e. one that opens a group. -/
def isHeaderLine (raw : String) : Prop :=
  ∃ c cs, (pyStrip raw).data = c :: cs ∧ c = '[' ∧ (c :: cs).getLast? = some ']'

/-! ## Full characterization of the static merge for a non-API hostname -/
/-- Hostname `h` appears under group `g` in the parsed static groups (any pair of
the dict whose key is `g` and whose host list contains `h`). -/
def memGroupL (sg : List (String × List String)) (g h : String) : Prop :=
  ∃ p ∈ sg, p.1 = g ∧ h ∈ p.2

/-! ## Document emitter: `main` -/
/-- JSON values as serialized by the script. -/
inductive Json where
  | str : String → Json
  | num : Int → Json
  | arr : List Json → Json
  | obj : List (String × Json) → Json

/-- Python-style string escaping for the quote and backslash characters
(the only escapes the script's identifier-like data can need). -/
def jsonEscapeChar (c : Char) : String :=
  if c = '\\' then "\\\\"
  else if c = '"' then "\\\""
  else String.mk [c]

def jsonEscape (s : String) : String :=
  String.join (s.data.map jsonEscapeChar)

def pad (n : Nat) : String :=
  String.mk (List.replicate n ' ')

mutual

/-- Python `json.dumps(v)` (for `ind = none`) and `json.dumps(v, indent=n)` (for
`ind = some n`) at nesting level `lvl`: Python's separators are `", "` and
`": "` without indent, and `","` followed by newline-plus-indent with it;
empty containers serialize as `\x7b\x7d` and `[]` in both modes. -/
def dumpJson (ind : Option Nat) (lvl : Nat) : Json → String
  | Json.str s => "\"" ++ jsonEscape s ++ "\""
  | Json.num n => toString n
  | Json.arr [] => "[]"
  | Json.arr (x :: xs) =>
    match ind with
    | none => "[" ++ dumpJson none 0 x ++ dumpArr none 0 xs ++ "]"
    | some n =>
      "[\n" ++ pad (n * (lvl + 1)) ++ dumpJson (some n) (lvl + 1) x ++
        dumpArr (some n) (lvl + 1) xs ++ "\n" ++ pad (n * lvl) ++ "]"
  | Json.obj [] => "\x7b\x7d"
  | Json.obj (kv :: kvs) =>
    match ind with
    | none =>
      "\x7b\"" ++ jsonEscape kv.1 ++ "\": " ++ dumpJson none 0 kv.2 ++
        dumpObj none 0 kvs ++ "\x7d"
    | some n =>
      "\x7b\n" ++ pad (n * (lvl + 1)) ++ "\"" ++ jsonEscape kv.1 ++ "\": " ++
        dumpJson (some n) (lvl + 1) kv.2 ++ dumpObj (some n) (lvl + 1) kvs ++
        "\n" ++ pad (n * lvl) ++ "\x7d"

def dumpArr (ind : Option Nat) (lvl : Nat) : List Json → String
  | [] => ""
  | x :: xs =>
    match ind with
    | none => ", " ++ dumpJson none 0 x ++ dumpArr none 0 xs
    | some n =>
      ",\n" ++ pad (n * lvl) ++ dumpJson (some n) lvl x ++ dumpArr (some n) lvl xs

def dumpObj (ind : Option Nat) (lvl : Nat) : List (String × Json) → String
  | [] => ""
  | kv :: kvs =>
    match ind with
    | none =>
      ", \"" ++ jsonEscape kv.1 ++ "\": " ++ dumpJson none 0 kv.2 ++ dumpObj none 0 kvs
    | some n =>
      ",\n" ++ pad (n * lvl) ++ "\"" ++ jsonEscape kv.1 ++ "\": " ++
        dumpJson (some n) lvl kv.2 ++ dumpObj (some n) lvl kvs

end

/-- One shard entry as the dict the source builds. -/
def shardToJson (s : Shard) : Json :=
  Json.obj [("shard_id", Json.str s.shard_id), ("shard_role", Json.str s.shard_role),
    ("shard_index", Json.num s.shard_index)]

/-- A hostvars value as its JSON object, with the key order of the source's
dict literal. -/
def hostVarsToJson : HostVarsV → Json
  | HostVarsV.api v =>
    Json.obj [("ansible_host", Json.str v.ansible_host),
      ("node_id", Json.str v.node_id),
      ("cluster_id", Json.str v.cluster_id),
      ("region_id", Json.str v.region_id),
      ("node_roles", Json.arr (v.node_roles.map Json.str)),
      ("node_status", Json.str v.node_status),
      ("shard_assignments", Json.arr (v.shard_assignments.map shardToJson))]
  | HostVarsV.static kvs => Json.obj (kvs.map (fun kv => (kv.1, Json.str kv.2)))

/-- The inventory document as the JSON object the script prints: the
`_meta` key first (it is inserted first), then each group in insertion
order, each as `{"hosts": [...]}`. -/
def invToJson (inv : Inv) : Json :=
  Json.obj (("_meta", Json.obj [("hostvars",
      Json.obj (inv.hostvars.map (fun kv => (kv.1, hostVarsToJson kv.2))))]) ::
    inv.groups.map (fun kv => (kv.1, Json.obj [("hosts", Json.arr (kv.2.map Json.str))])))

/-- Embedding of `main()`: the text printed to stdout as a function of `sys.argv`, the
fetched API results and the parsed static file.  `--list` (or no flag)
prints `json.dumps(build_inventory(), indent=2)`; `--host` without
`--list` prints `json.dumps({})`.  `none` models an uncaught exception
escaping `build_inventory`. -/
def mainOutput (argv : List String) (api : Api) (sg : List (String × List String))
    (sv : List (String × List (String × String))) : Option String :=
  if argv.contains "--list" then
    (buildInventory api sg sv).map (fun inv => dumpJson (some 2) 0 (invToJson inv))
  else if argv.contains "--host" then some (dumpJson none 0 (Json.obj []))
  else (buildInventory api sg sv).map (fun inv => dumpJson (some 2) 0 (invToJson inv))

/-! ## Theorems -/

theorem dget_dset_self {β : Type} (d : List (String × β)) (k : String) (v : β) :
    dget (dset d k v) k = some v := by
  induction d with
  | nil => simp [dget, dset]
  | cons p rest ih =>
    obtain ⟨k', v'⟩ := p
    by_cases h : k' = k
    · simp [dget, dset, h]
    · simp [dget, dset, h, ih]

theorem dget_dset_ne {β : Type} (d : List (String × β)) (k k' : String) (v : β)
    (h : k ≠ k') : dget (dset d k v) k' = dget d k' := by
  induction d with
  | nil => simp [dget, dset, h]
  | cons p rest ih =>
    obtain ⟨k0, v0⟩ := p
    by_cases h0 : k0 = k
    · subst h0
      simp [dget, dset, h]
    · simp [dget, dset, h0, ih]

theorem apiGetAux_cons_nonterminal {α : Type} (q : Page α) (l : List (Resp α))
    (acc : List α) (hq : nonterminal q) :
    apiGetAux (Resp.ok q :: l) acc =
      (apiGetAux l (acc ++ q.items)).map (fun r => (r.1, r.2 + 1)) := by
  simp only [apiGetAux, hq.1, hq.2]
  simp only [show (true = false) = False by simp, if_false, if_neg hq.2]
  cases h : apiGetAux l (acc ++ q.items) <;> simp [h]

theorem apiGetAux_skip {α : Type} (ps : List (Page α)) (l : List (Resp α))
    (acc : List α) (hmid : ∀ q ∈ ps, nonterminal q) :
    apiGetAux (ps.map Resp.ok ++ l) acc =
      (apiGetAux l (acc ++ (ps.map Page.items).flatten)).map
        (fun r => (r.1, r.2 + ps.length)) := by
  induction ps generalizing acc with
  | nil =>
    simp only [List.map_nil, List.nil_append, List.flatten_nil, List.append_nil,
      List.length_nil]
    cases h : apiGetAux l acc <;> simp [h]
  | cons q ps ih =>
    have hq : nonterminal q := hmid q (List.mem_cons_self q ps)
    have hps : ∀ q' ∈ ps, nonterminal q' := fun q' hq' => hmid q' (List.mem_cons_of_mem q hq')
    rw [List.map_cons, List.cons_append, apiGetAux_cons_nonterminal q _ acc hq,
      ih (acc ++ q.items) hps]
    simp only [List.map_cons, List.flatten_cons, List.length_cons, List.append_assoc]
    cases h : apiGetAux l (acc ++ (q.items ++ (ps.map Page.items).flatten)) <;>
      simp [h, Nat.add_assoc, Nat.add_comm 1 ps.length]

/-- C1: for every sequence of well-formed pages, `api_get` returns the
concatenation of every page's `items` in page order, and issues no further
request exactly at the first page whose `has_more` is false or whose
`next_cursor` is empty/missing: with `ps` the non-terminal pages preceding
the first terminal page `p`, the call returns the items of `ps ++ [p]` and
issues exactly `ps.length + 1` requests, regardless of any further
responses `rest` the server could have given. -/
theorem C1_pagination {α : Type} (ps : List (Page α)) (p : Page α)
    (rest : List (Resp α)) (hmid : ∀ q ∈ ps, nonterminal q)
    (hstop : p.has_more = false ∨ p.next_cursor = "") :
    apiGet (ps.map Resp.ok ++ Resp.ok p :: rest) =
      some ((ps.map Page.items).flatten ++ p.items, ps.length + 1) := by
  unfold apiGet
  rw [apiGetAux_skip ps (Resp.ok p :: rest) [] hmid]
  rcases hstop with h | h
  · simp [apiGetAux, h, Nat.add_comm]
  · by_cases hm : p.has_more = false
    · simp [apiGetAux, hm, Nat.add_comm]
    · simp [apiGetAux, hm, h, Nat.add_comm]

/-- Witness for C1 at a concrete two-page response sequence. -/
theorem C1_pagination_witness :
    apiGet [Resp.ok (⟨[1, 2], true, "c"⟩ : Page Nat), Resp.ok ⟨[3], false, ""⟩] =
      some ([1, 2, 3], 2) := by
  have h := C1_pagination [⟨[1, 2], true, "c"⟩] (⟨[3], false, ""⟩ : Page Nat) []
    (by intro q hq; simp at hq; subst hq; exact ⟨rfl, by decide⟩) (Or.inl rfl)
  simpa using h

/-- C2: a transport-level error on any page makes `api_get` return the
empty list for the whole call, discarding the items of all earlier
successfully fetched pages `ps`. -/
theorem C2_error_empty {α : Type} (ps : List (Page α)) (rest : List (Resp α))
    (hmid : ∀ q ∈ ps, nonterminal q) :
    apiGet (ps.map Resp.ok ++ Resp.err :: rest) = some ([], ps.length + 1) := by
  unfold apiGet
  rw [apiGetAux_skip ps (Resp.err :: rest) [] hmid]
  simp [apiGetAux, Nat.add_comm]

/-- Witness for C2: a successful page followed by an error yields `[]`. -/
theorem C2_error_empty_witness :
    apiGet [Resp.ok (⟨[1, 2], true, "c"⟩ : Page Nat), Resp.err] = some ([], 2) := by
  have h := C2_error_empty [⟨[1, 2], true, "c"⟩] []
    (by intro q hq; simp at hq; subst hq; exact ⟨rfl, by decide⟩)
  simpa using h

/-! ## Fold and append infrastructure -/
theorem foldE_append {σ α : Type} (f : σ → α → Option σ) (s : σ) (l₁ l₂ : List α) :
    foldE f s (l₁ ++ l₂) = (foldE f s l₁).bind (fun s' => foldE f s' l₂) := by
  induction l₁ generalizing s with
  | nil => simp [foldE]
  | cons a l ih =>
    simp only [List.cons_append, foldE]
    cases f s a <;> simp [ih]

theorem foldE_cons {σ α : Type} (f : σ → α → Option σ) (s : σ) (a : α) (l : List α) :
    foldE f s (a :: l) =
      match f s a with
      | none => none
      | some s' => foldE f s' l := rfl

theorem foldE_congr {σ α : Type} (f g : σ → α → Option σ) (s : σ) (l : List α)
    (h : ∀ s' a, f s' a = g s' a) : foldE f s l = foldE g s l := by
  induction l generalizing s with
  | nil => rfl
  | cons a l ih =>
    simp only [foldE, h s a]
    cases g s a <;> simp [ih]

theorem foldE_map {σ α β : Type} (f : σ → β → Option σ) (g : α → β) (s : σ)
    (l : List α) : foldE f s (l.map g) = foldE (fun s' a => f s' (g a)) s l := by
  induction l generalizing s with
  | nil => rfl
  | cons a l ih =>
    simp only [List.map_cons, foldE]
    cases f s (g a) <;> simp [ih]

theorem foldE_flatMap {σ α β : Type} (f : σ → β → Option σ) (g : α → List β)
    (s : σ) (l : List α) :
    foldE f s (l.flatMap g) = foldE (fun s' a => foldE f s' (g a)) s l := by
  induction l generalizing s with
  | nil => rfl
  | cons a l ih =>
    simp only [List.flatMap_cons, foldE_append, foldE]
    cases foldE f s (g a) <;> simp [ih]

/-- The nested region → cluster → node loops are the single fold of
`nodeStep` over the flattened occurrence list. -/
theorem apiWalk_eq_foldE (api : Api) :
    apiWalk api = foldE nodeStep initState (occs api) := by
  unfold apiWalk occs
  rw [foldE_flatMap]
  apply foldE_congr
  intro s r
  unfold processRegion
  rw [foldE_flatMap]
  apply foldE_congr
  intro s' c
  unfold processCluster
  rw [foldE_map]
  rfl

theorem dget_groupAppendU_self (gs : List (String × List String)) (g h : String) :
    dget (groupAppendU gs g h) g = some ((dget gs g).getD [] ++ [h]) := by
  unfold groupAppendU
  cases hg : dget gs g <;> simp [hg, dget_dset_self]

theorem dget_groupAppendU_ne (gs : List (String × List String)) (g g' h : String)
    (hne : g ≠ g') : dget (groupAppendU gs g h) g' = dget gs g' := by
  unfold groupAppendU
  cases hg : dget gs g <;> simp [dget_dset_ne _ _ _ _ hne]

theorem dget_groupAppendC_self (gs : List (String × List String)) (g h : String) :
    dget (groupAppendC gs g h) g =
      some (if h ∈ (dget gs g).getD [] then (dget gs g).getD []
            else (dget gs g).getD [] ++ [h]) := by
  unfold groupAppendC
  cases hg : dget gs g with
  | none => simp [hg, dget_dset_self]
  | some l =>
    by_cases hm : h ∈ l
    · simp [hg, hm]
    · simp [hg, hm, dget_dset_self]

theorem dget_groupAppendC_ne (gs : List (String × List String)) (g g' h : String)
    (hne : g ≠ g') : dget (groupAppendC gs g h) g' = dget gs g' := by
  unfold groupAppendC
  cases hg : dget gs g with
  | none => simp [dget_dset_ne _ _ _ _ hne]
  | some l =>
    by_cases hm : h ∈ l
    · simp [hm]
    · simp [hm, dget_dset_ne _ _ _ _ hne]

theorem memGroup_appendU_mono (gs : List (String × List String)) (g g' h x : String)
    (hm : memGroup gs g x) : memGroup (groupAppendU gs g' h) g x := by
  obtain ⟨l, hl, hx⟩ := hm
  by_cases he : g' = g
  · subst he
    exact ⟨_, dget_groupAppendU_self gs g' h, by simp [hl, hx]⟩
  · exact ⟨l, by rw [dget_groupAppendU_ne gs g' g h he]; exact hl, hx⟩

theorem memGroup_appendC_mono (gs : List (String × List String)) (g g' h x : String)
    (hm : memGroup gs g x) : memGroup (groupAppendC gs g' h) g x := by
  obtain ⟨l, hl, hx⟩ := hm
  by_cases he : g' = g
  · subst he
    refine ⟨_, dget_groupAppendC_self gs g' h, ?_⟩
    rw [hl]
    simp only [Option.getD_some]
    split <;> simp [hx]
  · exact ⟨l, by rw [dget_groupAppendC_ne gs g' g h he]; exact hl, hx⟩

theorem memGroup_appendC_self (gs : List (String × List String)) (g h : String) :
    memGroup (groupAppendC gs g h) g h := by
  refine ⟨_, dget_groupAppendC_self gs g h, ?_⟩
  by_cases hmem : h ∈ (dget gs g).getD [] <;> simp [hmem]

theorem dget_groupAppendC_cases (gs : List (String × List String)) (g h g' : String) :
    dget (groupAppendC gs g h) g' = dget gs g' ∨
      (g = g' ∧ dget (groupAppendC gs g h) g' = some ((dget gs g).getD [] ++ [h]) ∧
        h ∉ (dget gs g).getD []) := by
  by_cases he : g = g'
  · subst he
    rw [dget_groupAppendC_self]
    by_cases hmem : h ∈ (dget gs g).getD []
    · left
      simp only [hmem, if_true]
      cases hg : dget gs g with
      | none => rw [hg] at hmem; simp at hmem
      | some l => simp [hg]
    · right
      simp [hmem]
  · left
    exact dget_groupAppendC_ne gs g g' h he

theorem dget_groupAppendU_cases (gs : List (String × List String)) (g h g' : String) :
    dget (groupAppendU gs g h) g' = dget gs g' ∨
      (g = g' ∧ dget (groupAppendU gs g h) g' = some ((dget gs g).getD [] ++ [h])) := by
  by_cases he : g = g'
  · subst he
    right
    exact ⟨rfl, dget_groupAppendU_self gs g h⟩
  · left
    exact dget_groupAppendU_ne gs g g' h he

/-- Appending a hostname `x ≠ h` (with membership check) cannot create a
membership of `h`. -/
theorem memGroup_appendC_inv (gs : List (String × List String)) (g g' h x : String)
    (hne : x ≠ h) (happ : memGroup (groupAppendC gs g' x) g h) : memGroup gs g h := by
  obtain ⟨l, hl, hx⟩ := happ
  rcases dget_groupAppendC_cases gs g' x g with hc | ⟨heq, hc, _⟩
  · exact ⟨l, by rw [← hc]; exact hl, hx⟩
  · subst heq
    rw [hl] at hc
    have hl2 : l = (dget gs g').getD [] ++ [x] := Option.some.inj hc
    subst hl2
    rcases List.mem_append.mp hx with hmem | hmem
    · cases hg : dget gs g' with
      | none => rw [hg] at hmem; simp at hmem
      | some l0 =>
        rw [hg] at hmem
        simp only [Option.getD_some] at hmem
        exact ⟨l0, hg, hmem⟩
    · simp at hmem
      exact absurd hmem.symm hne

/-- Appending a hostname `x ≠ h` without membership check cannot create a
membership of `h`. -/
theorem memGroup_appendU_inv (gs : List (String × List String)) (g g' h x : String)
    (hne : x ≠ h) (happ : memGroup (groupAppendU gs g' x) g h) : memGroup gs g h := by
  obtain ⟨l, hl, hx⟩ := happ
  rcases dget_groupAppendU_cases gs g' x g with hc | ⟨heq, hc⟩
  · exact ⟨l, by rw [← hc]; exact hl, hx⟩
  · subst heq
    rw [hl] at hc
    have hl2 : l = (dget gs g').getD [] ++ [x] := Option.some.inj hc
    subst hl2
    rcases List.mem_append.mp hx with hmem | hmem
    · cases hg : dget gs g' with
      | none => rw [hg] at hmem; simp at hmem
      | some l0 =>
        rw [hg] at hmem
        simp only [Option.getD_some] at hmem
        exact ⟨l0, hg, hmem⟩
    · simp at hmem
      exact absurd hmem.symm hne

/-! ## Tracking one hostname through the walk -/
theorem region_group_ne_cluster_group (a b : String) :
    "region_" ++ a ≠ "cluster_" ++ b := by
  intro h
  have h2 := congrArg String.data h
  rw [String.data_append, String.data_append] at h2
  have hr : "region_".data = ['r', 'e', 'g', 'i', 'o', 'n', '_'] := rfl
  have hc : "cluster_".data = ['c', 'l', 'u', 's', 't', 'e', 'r', '_'] := rfl
  rw [hr, hc] at h2
  simp at h2

theorem count_append_ne (l : List String) (h x : String) (hne : x ≠ h) :
    (l ++ [x]).count h = l.count h := by
  rw [List.count_append]
  have h0 : List.count h [x] = 0 :=
    List.count_eq_zero.mpr (by simp; exact fun he => hne he.symm)
  omega

theorem count_append_self (l : List String) (h : String) :
    (l ++ [h]).count h = l.count h + 1 := by
  simp [List.count_append]

theorem absentAll_count (h : String) (gs : List (String × List String))
    (ha : absentAll h gs) (g : String) (l : List String) (hl : dget gs g = some l) :
    l.count h = 0 :=
  List.count_eq_zero.mpr (fun hm => ha g ⟨l, hl, hm⟩)

theorem absentAll_atMostOnce (h : String) (gs : List (String × List String))
    (ha : absentAll h gs) : atMostOnce h gs := by
  intro g l hl
  rw [absentAll_count h gs ha g l hl]
  omega

theorem absentAll_not_getD (h : String) (gs : List (String × List String))
    (ha : absentAll h gs) (g : String) : h ∉ (dget gs g).getD [] := by
  cases hg : dget gs g with
  | none => simp
  | some l =>
    simp only [Option.getD_some]
    exact fun hm => ha g ⟨l, hg, hm⟩

/-- A membership-checked append (of any hostname) keeps every group's
`h`-count at most one. -/
theorem atMostOnce_appendC (h : String) (gs : List (String × List String))
    (g x : String) (ha : atMostOnce h gs) : atMostOnce h (groupAppendC gs g x) := by
  intro g' l hl
  rcases dget_groupAppendC_cases gs g x g' with hc | ⟨heq, hc, hnm⟩
  · exact ha g' l (by rw [← hc]; exact hl)
  · subst heq
    rw [hl] at hc
    have hl2 : l = (dget gs g).getD [] ++ [x] := Option.some.inj hc
    subst hl2
    by_cases hx : x = h
    · subst hx
      rw [count_append_self]
      have h0 : ((dget gs g).getD []).count x = 0 := List.count_eq_zero.mpr hnm
      omega
    · rw [count_append_ne _ _ _ hx]
      cases hg : dget gs g with
      | none => simp
      | some l0 =>
        simp only [Option.getD_some]
        exact ha g l0 hg

theorem atMostOnce_appendU_ne (h : String) (gs : List (String × List String))
    (g x : String) (hne : x ≠ h) (ha : atMostOnce h gs) :
    atMostOnce h (groupAppendU gs g x) := by
  intro g' l hl
  rcases dget_groupAppendU_cases gs g x g' with hc | ⟨heq, hc⟩
  · exact ha g' l (by rw [← hc]; exact hl)
  · subst heq
    rw [hl] at hc
    have hl2 : l = (dget gs g).getD [] ++ [x] := Option.some.inj hc
    subst hl2
    rw [count_append_ne _ _ _ hne]
    cases hg : dget gs g with
    | none => simp
    | some l0 =>
      simp only [Option.getD_some]
      exact ha g l0 hg

theorem atMostOnce_appendU_fresh (h : String) (gs : List (String × List String))
    (g : String) (ha : atMostOnce h gs) (habs : h ∉ (dget gs g).getD []) :
    atMostOnce h (groupAppendU gs g h) := by
  intro g' l hl
  rcases dget_groupAppendU_cases gs g h g' with hc | ⟨heq, hc⟩
  · exact ha g' l (by rw [← hc]; exact hl)
  · subst heq
    rw [hl] at hc
    have hl2 : l = (dget gs g).getD [] ++ [h] := Option.some.inj hc
    subst hl2
    rw [count_append_self]
    have h0 : ((dget gs g).getD []).count h = 0 := List.count_eq_zero.mpr habs
    omega

theorem absentAll_appendC_ne (h : String) (gs : List (String × List String))
    (g x : String) (hne : x ≠ h) (ha : absentAll h gs) :
    absentAll h (groupAppendC gs g x) :=
  fun g' hm => ha g' (memGroup_appendC_inv gs g' g h x hne hm)

theorem absentAll_appendU_ne (h : String) (gs : List (String × List String))
    (g x : String) (hne : x ≠ h) (ha : absentAll h gs) :
    absentAll h (groupAppendU gs g x) :=
  fun g' hm => ha g' (memGroup_appendU_inv gs g' g h x hne hm)

/-! ## Node-step characterization -/
theorem processNode_invalid (rid cid : String) (st : BState) (n : NodeObj)
    (h : n.hostname = "" ∨ n.ip_address = "") :
    processNode rid cid st n = some st := by
  unfold processNode
  rw [if_pos h]

theorem processNode_some_elim (rid cid : String) (st : BState) (n : NodeObj)
    (st' : BState) (hval : validNode n) (hs : processNode rid cid st n = some st') :
    ∃ gs3, foldE (addRoleStep n.hostname)
        (groupAppendU (groupAppendU st.inv.groups ("region_" ++ rid) n.hostname)
          ("cluster_" ++ cid) n.hostname) n.roles = some gs3 ∧
      st' = ⟨⟨dset st.inv.hostvars n.hostname (HostVarsV.api (apiVarsOf rid cid n)), gs3⟩,
        n.hostname :: st.api_hostnames⟩ := by
  unfold processNode at hs
  rw [if_neg (by rintro (hc | hc); exacts [hval.1 hc, hval.2 hc])] at hs
  cases hfold : foldE (addRoleStep n.hostname)
      (groupAppendU (groupAppendU st.inv.groups ("region_" ++ rid) n.hostname)
        ("cluster_" ++ cid) n.hostname) n.roles with
  | none => rw [hfold] at hs; cases hs
  | some gs3 =>
    rw [hfold] at hs
    exact ⟨gs3, rfl, (Option.some.inj hs).symm⟩

theorem foldE_addRole_memGroup_mono (h : String) (roles : List String)
    (gs gs' : List (String × List String)) (g x : String)
    (hf : foldE (addRoleStep h) gs roles = some gs') (hm : memGroup gs g x) :
    memGroup gs' g x := by
  induction roles generalizing gs with
  | nil =>
    unfold foldE at hf
    rw [Option.some.inj hf] at hm
    exact hm
  | cons r roles ih =>
    unfold foldE addRoleStep at hf
    by_cases hg : roleGroup r = "_meta"
    · rw [if_pos hg] at hf
      cases hf
    · rw [if_neg hg] at hf
      exact ih _ hf (memGroup_appendC_mono _ _ _ _ _ hm)

theorem foldE_addRole_memGroup_inv (h x : String) (roles : List String)
    (gs gs' : List (String × List String)) (g : String) (hne : h ≠ x)
    (hf : foldE (addRoleStep h) gs roles = some gs') (hm : memGroup gs' g x) :
    memGroup gs g x := by
  induction roles generalizing gs with
  | nil =>
    unfold foldE at hf
    rw [Option.some.inj hf]
    exact hm
  | cons r roles ih =>
    unfold foldE addRoleStep at hf
    by_cases hg : roleGroup r = "_meta"
    · rw [if_pos hg] at hf
      cases hf
    · rw [if_neg hg] at hf
      exact memGroup_appendC_inv _ _ _ _ _ hne (ih _ hf)

theorem foldE_addRole_self (h : String) (roles : List String)
    (gs gs' : List (String × List String))
    (hf : foldE (addRoleStep h) gs roles = some gs') (r : String) (hr : r ∈ roles) :
    memGroup gs' (roleGroup r) h := by
  induction roles generalizing gs with
  | nil => cases hr
  | cons r0 roles ih =>
    unfold foldE addRoleStep at hf
    by_cases hg : roleGroup r0 = "_meta"
    · rw [if_pos hg] at hf
      cases hf
    · rw [if_neg hg] at hf
      rcases List.mem_cons.mp hr with he | hr'
      · subst he
        exact foldE_addRole_memGroup_mono h roles _ gs' _ h hf
          (memGroup_appendC_self _ _ _)
      · exact ih _ hf hr'

theorem foldE_addRole_atMostOnce (x h : String) (roles : List String)
    (gs gs' : List (String × List String))
    (hf : foldE (addRoleStep x) gs roles = some gs') (ha : atMostOnce h gs) :
    atMostOnce h gs' := by
  induction roles generalizing gs with
  | nil =>
    unfold foldE at hf
    rw [← Option.some.inj hf]
    exact ha
  | cons r roles ih =>
    unfold foldE addRoleStep at hf
    by_cases hg : roleGroup r = "_meta"
    · rw [if_pos hg] at hf
      cases hf
    · rw [if_neg hg] at hf
      exact ih _ hf (atMostOnce_appendC h _ _ _ ha)

theorem foldE_addRole_absentAll (x h : String) (hne : x ≠ h) (roles : List String)
    (gs gs' : List (String × List String))
    (hf : foldE (addRoleStep x) gs roles = some gs') (ha : absentAll h gs) :
    absentAll h gs' := by
  induction roles generalizing gs with
  | nil =>
    unfold foldE at hf
    rw [← Option.some.inj hf]
    exact ha
  | cons r roles ih =>
    unfold foldE addRoleStep at hf
    by_cases hg : roleGroup r = "_meta"
    · rw [if_pos hg] at hf
      cases hf
    · rw [if_neg hg] at hf
      exact ih _ hf (absentAll_appendC_ne h _ _ _ hne ha)

/-- Effect of a node step on a hostname `h` the step does not validly
carry: hostvars entry, absence, at-most-once counts and `api_hostnames`
membership of `h` are all preserved. -/
theorem nodeStep_track (st st' : BState) (o : String × String × NodeObj) (h : String)
    (hs : nodeStep st o = some st') (hno : o.2.2.hostname = h → ¬ validNode o.2.2) :
    dget st'.inv.hostvars h = dget st.inv.hostvars h ∧
    (absentAll h st.inv.groups → absentAll h st'.inv.groups) ∧
    (atMostOnce h st.inv.groups → atMostOnce h st'.inv.groups) ∧
    (h ∈ st'.api_hostnames ↔ h ∈ st.api_hostnames) := by
  obtain ⟨rid, cid, n⟩ := o
  have hs' : processNode rid cid st n = some st' := hs
  by_cases hval : validNode n
  · have hne : n.hostname ≠ h := fun he => hno he hval
    obtain ⟨gs3, hfold, hst⟩ := processNode_some_elim rid cid st n st' hval hs'
    subst hst
    refine ⟨dget_dset_ne _ _ _ _ hne, ?_, ?_, ?_⟩
    · intro ha
      exact foldE_addRole_absentAll n.hostname h hne n.roles _ gs3 hfold
        (absentAll_appendU_ne h _ _ _ hne (absentAll_appendU_ne h _ _ _ hne ha))
    · intro ha
      exact foldE_addRole_atMostOnce n.hostname h n.roles _ gs3 hfold
        (atMostOnce_appendU_ne h _ _ _ hne (atMostOnce_appendU_ne h _ _ _ hne ha))
    · simp [List.mem_cons, Ne.symm hne]
  · have hskip : processNode rid cid st n = some st := by
      apply processNode_invalid
      unfold validNode at hval
      push_neg at hval
      by_cases hh : n.hostname = ""
      · exact Or.inl hh
      · exact Or.inr (hval hh)
    rw [hskip] at hs'
    rw [← Option.some.inj hs']
    exact ⟨rfl, fun ha => ha, fun ha => ha, Iff.rfl⟩

/-- A successful node step only grows group membership. -/
theorem nodeStep_memGroup_mono (st st' : BState) (o : String × String × NodeObj)
    (g x : String) (hs : nodeStep st o = some st')
    (hm : memGroup st.inv.groups g x) : memGroup st'.inv.groups g x := by
  obtain ⟨rid, cid, n⟩ := o
  have hs' : processNode rid cid st n = some st' := hs
  by_cases hval : validNode n
  · obtain ⟨gs3, hfold, hst⟩ := processNode_some_elim rid cid st n st' hval hs'
    subst hst
    exact foldE_addRole_memGroup_mono n.hostname n.roles _ gs3 g x hfold
      (memGroup_appendU_mono _ _ _ _ _ (memGroup_appendU_mono _ _ _ _ _ hm))
  · have hskip : processNode rid cid st n = some st := by
      apply processNode_invalid
      unfold validNode at hval
      push_neg at hval
      by_cases hh : n.hostname = ""
      · exact Or.inl hh
      · exact Or.inr (hval hh)
    rw [hskip] at hs'
    rw [← Option.some.inj hs']
    exact hm

/-- A successful node step only grows the `api_hostnames` set. -/
theorem nodeStep_api_mono (st st' : BState) (o : String × String × NodeObj)
    (x : String) (hs : nodeStep st o = some st') (hx : x ∈ st.api_hostnames) :
    x ∈ st'.api_hostnames := by
  obtain ⟨rid, cid, n⟩ := o
  have hs' : processNode rid cid st n = some st' := hs
  by_cases hval : validNode n
  · obtain ⟨gs3, hfold, hst⟩ := processNode_some_elim rid cid st n st' hval hs'
    subst hst
    exact List.mem_cons_of_mem _ hx
  · have hskip : processNode rid cid st n = some st := by
      apply processNode_invalid
      unfold validNode at hval
      push_neg at hval
      by_cases hh : n.hostname = ""
      · exact Or.inl hh
      · exact Or.inr (hval hh)
    rw [hskip] at hs'
    rw [← Option.some.inj hs']
    exact hx

/-! ## Invariant preservation along folds -/
theorem foldE_pres {σ α : Type} (P : σ → Prop) (f : σ → α → Option σ)
    (l : List α) (s s' : σ) (hf : foldE f s l = some s')
    (hstep : ∀ t a t', a ∈ l → f t a = some t' → P t → P t') (hp : P s) : P s' := by
  induction l generalizing s with
  | nil =>
    unfold foldE at hf
    rw [← Option.some.inj hf]
    exact hp
  | cons a l ih =>
    unfold foldE at hf
    cases hsa : f s a with
    | none => rw [hsa] at hf; cases hf
    | some s1 =>
      rw [hsa] at hf
      exact ih s1 hf
        (fun t b t' hb => hstep t b t' (List.mem_cons_of_mem a hb))
        (hstep s a s1 (List.mem_cons_self a l) hsa hp)

/-- Facts about the state established for hostname `h` (its hostvars entry,
membership in `api_hostnames`, and at-most-once group counts) are
preserved by every node step that is not a valid occurrence of `h`. -/
theorem nodeStep_pres_self (st st' : BState) (o : String × String × NodeObj)
    (h : String) (V : HostVarsV) (hs : nodeStep st o = some st')
    (hno : o.2.2.hostname = h → ¬ validNode o.2.2)
    (hp : dget st.inv.hostvars h = some V ∧ h ∈ st.api_hostnames ∧
      atMostOnce h st.inv.groups) :
    dget st'.inv.hostvars h = some V ∧ h ∈ st'.api_hostnames ∧
      atMostOnce h st'.inv.groups := by
  obtain ⟨hv, hmem, hcnt⟩ := hp
  obtain ⟨h1, _, h3, h4⟩ := nodeStep_track st st' o h hs hno
  exact ⟨h1.trans hv, h4.mpr hmem, h3 hcnt⟩

/-- A hostname nowhere in the state stays nowhere across node steps that
are not valid occurrences of it. -/
theorem nodeStep_pres_untouched (st st' : BState) (o : String × String × NodeObj)
    (h : String) (hs : nodeStep st o = some st')
    (hno : o.2.2.hostname = h → ¬ validNode o.2.2)
    (hp : dget st.inv.hostvars h = none ∧ absentAll h st.inv.groups ∧
      h ∉ st.api_hostnames) :
    dget st'.inv.hostvars h = none ∧ absentAll h st'.inv.groups ∧
      h ∉ st'.api_hostnames := by
  obtain ⟨hv, habs, hmem⟩ := hp
  obtain ⟨h1, h2, _, h4⟩ := nodeStep_track st st' o h hs hno
  exact ⟨h1.trans hv, h2 habs, fun hc => hmem (h4.mp hc)⟩

theorem processNode_self_facts (rid cid : String) (st : BState) (n : NodeObj)
    (st' : BState) (hval : validNode n) (hs : processNode rid cid st n = some st') :
    dget st'.inv.hostvars n.hostname = some (HostVarsV.api (apiVarsOf rid cid n)) ∧
    n.hostname ∈ st'.api_hostnames := by
  obtain ⟨gs3, hfold, hst⟩ := processNode_some_elim rid cid st n st' hval hs
  subst hst
  exact ⟨dget_dset_self _ _ _, List.mem_cons_self _ _⟩

theorem processNode_self_atMostOnce (rid cid : String) (st : BState) (n : NodeObj)
    (st' : BState) (hval : validNode n) (hs : processNode rid cid st n = some st')
    (habs : absentAll n.hostname st.inv.groups) :
    atMostOnce n.hostname st'.inv.groups := by
  obtain ⟨gs3, hfold, hst⟩ := processNode_some_elim rid cid st n st' hval hs
  subst hst
  apply foldE_addRole_atMostOnce n.hostname n.hostname n.roles _ gs3 hfold
  apply atMostOnce_appendU_fresh
  · exact atMostOnce_appendU_fresh _ _ _ (absentAll_atMostOnce _ _ habs)
      (absentAll_not_getD _ _ habs _)
  · rw [dget_groupAppendU_ne st.inv.groups ("region_" ++ rid) ("cluster_" ++ cid)
      n.hostname (region_group_ne_cluster_group rid cid)]
    exact absentAll_not_getD _ _ habs _

theorem processNode_self_role (rid cid : String) (st : BState) (n : NodeObj)
    (st' : BState) (hval : validNode n) (hs : processNode rid cid st n = some st')
    (r : String) (hr : r ∈ n.roles) :
    memGroup st'.inv.groups (roleGroup r) n.hostname := by
  obtain ⟨gs3, hfold, hst⟩ := processNode_some_elim rid cid st n st' hval hs
  subst hst
  exact foldE_addRole_self n.hostname n.roles _ gs3 hfold r hr

/-! ## Static-merge step lemmas -/
theorem staticHostStep_some_elim (sv : List (String × List (String × String)))
    (g : String) (st : BState) (x : String) (st' : BState)
    (hs : staticHostStep sv g st x = some st') :
    (x ∈ st.api_hostnames ∧ st' = st) ∨
    (x ∉ st.api_hostnames ∧ g ≠ "_meta" ∧
      st' = ⟨⟨match dget sv x with
              | some v => dset st.inv.hostvars x (HostVarsV.static v)
              | none => st.inv.hostvars,
              groupAppendC st.inv.groups g x⟩, st.api_hostnames⟩) := by
  unfold staticHostStep at hs
  by_cases h1 : x ∈ st.api_hostnames
  · rw [if_pos h1] at hs
    exact Or.inl ⟨h1, (Option.some.inj hs).symm⟩
  · rw [if_neg h1] at hs
    by_cases h2 : g = "_meta"
    · rw [if_pos h2] at hs
      cases hs
    · rw [if_neg h2] at hs
      exact Or.inr ⟨h1, h2, (Option.some.inj hs).symm⟩

theorem staticHostStep_pres_self (sv : List (String × List (String × String)))
    (g : String) (st : BState) (x : String) (st' : BState) (h : String)
    (V : HostVarsV) (hs : staticHostStep sv g st x = some st')
    (hp : dget st.inv.hostvars h = some V ∧ h ∈ st.api_hostnames ∧
      atMostOnce h st.inv.groups) :
    dget st'.inv.hostvars h = some V ∧ h ∈ st'.api_hostnames ∧
      atMostOnce h st'.inv.groups := by
  obtain ⟨hv, hmem, hcnt⟩ := hp
  rcases staticHostStep_some_elim sv g st x st' hs with ⟨_, rfl⟩ | ⟨hnotin, hmeta, hst⟩
  · exact ⟨hv, hmem, hcnt⟩
  · have hne : x ≠ h := fun he => hnotin (he ▸ hmem)
    subst hst
    refine ⟨?_, hmem, atMostOnce_appendC h _ _ _ hcnt⟩
    cases hsv : dget sv x with
    | some v =>
      simp only [hsv]
      rw [dget_dset_ne _ _ _ _ hne]
      exact hv
    | none =>
      simp only [hsv]
      exact hv

theorem mergeStatic_pres_self (sg : List (String × List String))
    (sv : List (String × List (String × String))) (st st' : BState) (h : String)
    (V : HostVarsV) (hm : mergeStatic sg sv st = some st')
    (hp : dget st.inv.hostvars h = some V ∧ h ∈ st.api_hostnames ∧
      atMostOnce h st.inv.groups) :
    dget st'.inv.hostvars h = some V ∧ h ∈ st'.api_hostnames ∧
      atMostOnce h st'.inv.groups := by
  unfold mergeStatic at hm
  refine foldE_pres (fun s => dget s.inv.hostvars h = some V ∧ h ∈ s.api_hostnames ∧
    atMostOnce h s.inv.groups) _ sg st st' hm ?_ hp
  intro t p t' hpmem hf hpt
  refine foldE_pres (fun s => dget s.inv.hostvars h = some V ∧ h ∈ s.api_hostnames ∧
    atMostOnce h s.inv.groups) (staticHostStep sv p.1) p.2 t t' hf ?_ hpt
  intro u x u' hx hsu hpu
  exact staticHostStep_pres_self sv p.1 u x u' h V hsu hpu

theorem staticHostStep_memGroup_mono (sv : List (String × List (String × String)))
    (g : String) (st : BState) (x : String) (st' : BState) (gq xq : String)
    (hs : staticHostStep sv g st x = some st')
    (hm : memGroup st.inv.groups gq xq) : memGroup st'.inv.groups gq xq := by
  rcases staticHostStep_some_elim sv g st x st' hs with ⟨_, rfl⟩ | ⟨_, _, hst⟩
  · exact hm
  · subst hst
    exact memGroup_appendC_mono _ _ _ _ _ hm

theorem mergeStatic_memGroup_mono (sg : List (String × List String))
    (sv : List (String × List (String × String))) (st st' : BState) (gq xq : String)
    (hm : mergeStatic sg sv st = some st')
    (hmem : memGroup st.inv.groups gq xq) : memGroup st'.inv.groups gq xq := by
  unfold mergeStatic at hm
  refine foldE_pres (fun s => memGroup s.inv.groups gq xq) _ sg st st' hm ?_ hmem
  intro t p t' hpmem hf hpt
  refine foldE_pres (fun s => memGroup s.inv.groups gq xq) (staticHostStep sv p.1)
    p.2 t t' hf ?_ hpt
  intro u x u' hx hsu hpu
  exact staticHostStep_memGroup_mono sv p.1 u x u' gq xq hsu hpu

theorem nodeStep_pres_hv (st st' : BState) (o : String × String × NodeObj)
    (h : String) (V : HostVarsV) (hs : nodeStep st o = some st')
    (hno : o.2.2.hostname = h → ¬ validNode o.2.2)
    (hp : dget st.inv.hostvars h = some V ∧ h ∈ st.api_hostnames) :
    dget st'.inv.hostvars h = some V ∧ h ∈ st'.api_hostnames := by
  obtain ⟨hv, hmem⟩ := hp
  obtain ⟨h1, _, _, h4⟩ := nodeStep_track st st' o h hs hno
  exact ⟨h1.trans hv, h4.mpr hmem⟩

theorem staticHostStep_pres_hv (sv : List (String × List (String × String)))
    (g : String) (st : BState) (x : String) (st' : BState) (h : String)
    (V : HostVarsV) (hs : staticHostStep sv g st x = some st')
    (hp : dget st.inv.hostvars h = some V ∧ h ∈ st.api_hostnames) :
    dget st'.inv.hostvars h = some V ∧ h ∈ st'.api_hostnames := by
  obtain ⟨hv, hmem⟩ := hp
  rcases staticHostStep_some_elim sv g st x st' hs with ⟨_, rfl⟩ | ⟨hnotin, hmeta, hst⟩
  · exact ⟨hv, hmem⟩
  · have hne : x ≠ h := fun he => hnotin (he ▸ hmem)
    subst hst
    refine ⟨?_, hmem⟩
    cases hsv : dget sv x with
    | some v =>
      simp only [hsv]
      rw [dget_dset_ne _ _ _ _ hne]
      exact hv
    | none =>
      simp only [hsv]
      exact hv

theorem mergeStatic_pres_hv (sg : List (String × List String))
    (sv : List (String × List (String × String))) (st st' : BState) (h : String)
    (V : HostVarsV) (hm : mergeStatic sg sv st = some st')
    (hp : dget st.inv.hostvars h = some V ∧ h ∈ st.api_hostnames) :
    dget st'.inv.hostvars h = some V ∧ h ∈ st'.api_hostnames := by
  unfold mergeStatic at hm
  refine foldE_pres (fun s => dget s.inv.hostvars h = some V ∧ h ∈ s.api_hostnames)
    _ sg st st' hm ?_ hp
  intro t p t' hpmem hf hpt
  refine foldE_pres (fun s => dget s.inv.hostvars h = some V ∧ h ∈ s.api_hostnames)
    (staticHostStep sv p.1) p.2 t t' hf ?_ hpt
  intro u x u' hx hsu hpu
  exact staticHostStep_pres_hv sv p.1 u x u' h V hsu hpu

/-- Destructure a successful `buildInventory` run into its walk state and
merged state. -/
theorem buildInventory_some_elim (api : Api) (sg : List (String × List String))
    (sv : List (String × List (String × String))) (doc : Inv)
    (hbuild : buildInventory api sg sv = some doc) :
    ∃ stW stF, apiWalk api = some stW ∧ mergeStatic sg sv stW = some stF ∧
      doc = stF.inv := by
  unfold buildInventory at hbuild
  cases hw : apiWalk api with
  | none => rw [hw] at hbuild; cases hbuild
  | some stW =>
    rw [hw, Option.some_bind'] at hbuild
    cases hms : mergeStatic sg sv stW with
    | none => rw [hms] at hbuild; simp at hbuild
    | some stF =>
      rw [hms, Option.map_some'] at hbuild
      exact ⟨stW, stF, rfl, hms, (Option.some.inj hbuild).symm⟩

/-- C10: when several valid nodes of the walk carry the same hostname, the
final `_meta.hostvars` entry for that hostname is exactly the record built
from the occurrence processed last in traversal order (`pre` may contain
arbitrarily many earlier occurrences of the hostname; `post` contains no
further valid one); no field of any earlier node survives. -/
theorem C10_last_write_wins (api : Api) (sg : List (String × List String))
    (sv : List (String × List (String × String))) (doc : Inv) (h rid cid : String)
    (n : NodeObj) (pre post : List (String × String × NodeObj))
    (hocc : occs api = pre ++ (rid, cid, n) :: post)
    (hn : n.hostname = h) (hval : validNode n)
    (hpost : ∀ o ∈ post, o.2.2.hostname = h → ¬ validNode o.2.2)
    (hbuild : buildInventory api sg sv = some doc) :
    dget doc.hostvars h = some (HostVarsV.api (apiVarsOf rid cid n)) := by
  obtain ⟨stW, stF, hw, hms, hdoc⟩ := buildInventory_some_elim api sg sv doc hbuild
  subst hdoc
  rw [apiWalk_eq_foldE, hocc, foldE_append] at hw
  cases hpre : foldE nodeStep initState pre with
  | none => rw [hpre] at hw; cases hw
  | some st0 =>
    rw [hpre] at hw
    rw [Option.some_bind'] at hw
    unfold foldE at hw
    cases hstep : nodeStep st0 (rid, cid, n) with
    | none => rw [hstep] at hw; cases hw
    | some st1 =>
      rw [hstep] at hw
      have hstep' : processNode rid cid st0 n = some st1 := hstep
      have hself := processNode_self_facts rid cid st0 n st1 hval hstep'
      have hP : dget stW.inv.hostvars h = some (HostVarsV.api (apiVarsOf rid cid n)) ∧
          h ∈ stW.api_hostnames := by
        refine foldE_pres (fun s => dget s.inv.hostvars h =
          some (HostVarsV.api (apiVarsOf rid cid n)) ∧ h ∈ s.api_hostnames)
          nodeStep post st1 stW hw ?_ ?_
        · intro t o t' ho hst hp
          exact nodeStep_pres_hv t t' o h _ hst (hpost o ho) hp
        · rw [← hn]
          exact hself
      exact (mergeStatic_pres_hv sg sv stW stF h _ hms hP).1

/-- Witness for C10: two valid nodes named `web1` in one cluster; the final
hostvars entry carries the second node's IP and id. -/
theorem C10_last_write_wins_witness :
    ∃ doc, buildInventory
        ⟨[⟨"r1"⟩], fun _ => [⟨"c1"⟩], fun _ =>
          [⟨"web1", "10.0.0.1", "n1", [], "", []⟩,
           ⟨"web1", "10.0.0.2", "n2", [], "", []⟩]⟩ [] [] = some doc ∧
      dget doc.hostvars "web1" =
        some (HostVarsV.api (apiVarsOf "r1" "c1" ⟨"web1", "10.0.0.2", "n2", [], "", []⟩)) :=
  ⟨_, rfl, C10_last_write_wins
    ⟨[⟨"r1"⟩], fun _ => [⟨"c1"⟩], fun _ =>
      [⟨"web1", "10.0.0.1", "n1", [], "", []⟩,
       ⟨"web1", "10.0.0.2", "n2", [], "", []⟩]⟩ [] [] _ "web1" "r1" "c1"
    ⟨"web1", "10.0.0.2", "n2", [], "", []⟩
    [("r1", "c1", ⟨"web1", "10.0.0.1", "n1", [], "", []⟩)] []
    (by decide) rfl (by decide) (by intro o ho; cases ho) rfl⟩

/-- C5 (amended): a node whose hostname or IP is falsy contributes nothing
to the output in the sense that deleting it from its cluster's node list
leaves `build_inventory`'s result unchanged, for every surrounding API
response sequence and static file.  The original claim's stronger clause —
that such a node's hostname appears in no group list and has no hostvars
entry — is refuted by `C5_counterexample` when a different, valid node
carries the same hostname. -/
theorem C5_invalid_node_noop (api api' : Api) (sg : List (String × List String))
    (sv : List (String × List (String × String))) (c0 : String)
    (l1 l2 : List NodeObj) (n : NodeObj)
    (hinv : n.hostname = "" ∨ n.ip_address = "")
    (hreg : api'.regions = api.regions)
    (hclus : ∀ r, api'.clusters r = api.clusters r)
    (hn : api.nodes c0 = l1 ++ n :: l2)
    (hn' : ∀ c, api'.nodes c = if c = c0 then l1 ++ l2 else api.nodes c) :
    buildInventory api sg sv = buildInventory api' sg sv := by
  have hwalk : apiWalk api = apiWalk api' := by
    unfold apiWalk
    rw [hreg]
    apply foldE_congr
    intro st r
    unfold processRegion
    rw [hclus r.id]
    apply foldE_congr
    intro st' c
    unfold processCluster
    rw [hn' c.id]
    by_cases hc : c.id = c0
    · rw [if_pos hc, hc, hn, foldE_append, foldE_append]
      cases h1 : foldE (processNode r.id c0) st' l1 with
      | none => rfl
      | some st1 =>
        rw [Option.some_bind', Option.some_bind', foldE_cons,
          show processNode r.id c0 st1 n = some st1 from processNode_invalid _ _ _ _ hinv]
    · rw [if_neg hc]
  unfold buildInventory
  rw [hwalk]

/-- Witness for C5: removing a hostname-less node leaves the built
document unchanged. -/
theorem C5_invalid_node_noop_witness :
    buildInventory
        ⟨[⟨"r1"⟩], fun _ => [⟨"c1"⟩], fun _ =>
          [⟨"", "10.0.0.9", "n0", ["web"], "", []⟩,
           ⟨"web1", "10.0.0.1", "n1", ["web"], "", []⟩]⟩ [] [] =
      buildInventory
        ⟨[⟨"r1"⟩], fun _ => [⟨"c1"⟩], fun c =>
          if c = "c1" then [⟨"web1", "10.0.0.1", "n1", ["web"], "", []⟩]
          else [⟨"", "10.0.0.9", "n0", ["web"], "", []⟩,
            ⟨"web1", "10.0.0.1", "n1", ["web"], "", []⟩]⟩ [] [] := by
  exact C5_invalid_node_noop
    ⟨[⟨"r1"⟩], fun _ => [⟨"c1"⟩], fun _ =>
      [⟨"", "10.0.0.9", "n0", ["web"], "", []⟩,
       ⟨"web1", "10.0.0.1", "n1", ["web"], "", []⟩]⟩
    ⟨[⟨"r1"⟩], fun _ => [⟨"c1"⟩], fun c =>
      if c = "c1" then [⟨"web1", "10.0.0.1", "n1", ["web"], "", []⟩]
      else [⟨"", "10.0.0.9", "n0", ["web"], "", []⟩,
        ⟨"web1", "10.0.0.1", "n1", ["web"], "", []⟩]⟩ [] [] "c1"
    [] [⟨"web1", "10.0.0.1", "n1", ["web"], "", []⟩]
    ⟨"", "10.0.0.9", "n0", ["web"], "", []⟩
    (Or.inl rfl) rfl (fun _ => rfl) rfl
    (fun c => rfl)

/-- C6: each role tag of a processed valid node puts the node's hostname
into the group named by the `ROLE_MAP` entry for the tag (the raw tag when
unmapped); concretely `"database"` resolves to `"db"` and the unmapped
`"custom"` resolves to `"custom"`. -/
theorem C6_role_groups (api : Api) (sg : List (String × List String))
    (sv : List (String × List (String × String))) (doc : Inv) (rid cid : String)
    (n : NodeObj) (t : String) (hmem : (rid, cid, n) ∈ occs api)
    (hval : validNode n) (ht : t ∈ n.roles)
    (hbuild : buildInventory api sg sv = some doc) :
    memGroup doc.groups (roleGroup t) n.hostname ∧
      roleGroup "database" = "db" ∧ roleGroup "custom" = "custom" := by
  refine ⟨?_, by decide, by decide⟩
  obtain ⟨stW, stF, hw, hms, hdoc⟩ := buildInventory_some_elim api sg sv doc hbuild
  subst hdoc
  obtain ⟨pre, post, hocc⟩ := List.append_of_mem hmem
  rw [apiWalk_eq_foldE, hocc, foldE_append] at hw
  cases hpre : foldE nodeStep initState pre with
  | none => rw [hpre] at hw; cases hw
  | some st0 =>
    rw [hpre] at hw
    rw [Option.some_bind'] at hw
    unfold foldE at hw
    cases hstep : nodeStep st0 (rid, cid, n) with
    | none => rw [hstep] at hw; cases hw
    | some st1 =>
      rw [hstep] at hw
      have hstep' : processNode rid cid st0 n = some st1 := hstep
      have hself := processNode_self_role rid cid st0 n st1 hval hstep' t ht
      have hW : memGroup stW.inv.groups (roleGroup t) n.hostname := by
        refine foldE_pres (fun s => memGroup s.inv.groups (roleGroup t) n.hostname)
          nodeStep post st1 stW hw ?_ hself
        intro u o u' ho hsu hpu
        exact nodeStep_memGroup_mono u u' o _ _ hsu hpu
      exact mergeStatic_memGroup_mono sg sv stW stF _ _ hms hW

/-- Witness for C6: a node with roles `database` and `custom` lands in
group `db`. -/
theorem C6_role_groups_witness :
    ∃ doc, buildInventory
        ⟨[⟨"r1"⟩], fun _ => [⟨"c1"⟩], fun _ =>
          [⟨"web1", "10.0.0.1", "n1", ["database", "custom"], "", []⟩]⟩ [] [] =
        some doc ∧ memGroup doc.groups "db" "web1" := by
  refine ⟨_, rfl, ?_⟩
  have h := C6_role_groups
    ⟨[⟨"r1"⟩], fun _ => [⟨"c1"⟩], fun _ =>
      [⟨"web1", "10.0.0.1", "n1", ["database", "custom"], "", []⟩]⟩ [] [] _
    "r1" "c1" ⟨"web1", "10.0.0.1", "n1", ["database", "custom"], "", []⟩ "database"
    (by decide) (by decide) (by decide) rfl
  exact h.2.1 ▸ h.1

/-! ## Duplicate-freedom of group lists -/
theorem nodup_append_singleton (l : List String) (h : String) (hnd : l.Nodup)
    (hm : h ∉ l) : (l ++ [h]).Nodup := by
  rw [List.nodup_append]
  exact ⟨hnd, List.nodup_singleton h, by simpa [List.disjoint_singleton] using hm⟩

theorem groupsBounded_appendC (S : List String) (gs : List (String × List String))
    (g h : String) (hb : groupsBounded S gs) (hh : h ∈ S) :
    groupsBounded S (groupAppendC gs g h) := by
  intro g' l hl
  rcases dget_groupAppendC_cases gs g h g' with hc | ⟨heq, hc, hnm⟩
  · exact hb g' l (by rw [← hc]; exact hl)
  · subst heq
    rw [hl] at hc
    have hl2 : l = (dget gs g).getD [] ++ [h] := Option.some.inj hc
    subst hl2
    cases hg : dget gs g with
    | none =>
      simp only [hg, Option.getD_none, List.nil_append]
      exact ⟨List.nodup_singleton h, by simpa using hh⟩
    | some l0 =>
      rw [hg] at hnm
      simp only [Option.getD_some] at hnm
      obtain ⟨hnd, hsub⟩ := hb g l0 hg
      simp only [Option.getD_some]
      refine ⟨nodup_append_singleton l0 h hnd hnm, ?_⟩
      intro x hx
      rcases List.mem_append.mp hx with hx | hx
      · exact hsub x hx
      · simp at hx
        subst hx
        exact hh

theorem groupsBounded_two_appendU (S : List String) (gs : List (String × List String))
    (h g1 g2 : String) (hb : groupsBounded S gs) (hfresh : h ∉ S) (hne : g1 ≠ g2) :
    groupsBounded (h :: S) (groupAppendU (groupAppendU gs g1 h) g2 h) := by
  intro g l hl
  have hold : ∀ g' l', dget gs g' = some l' → l'.Nodup ∧ h ∉ l' ∧ ∀ x ∈ l', x ∈ h :: S := by
    intro g' l' hl'
    obtain ⟨hnd, hsub⟩ := hb g' l' hl'
    exact ⟨hnd, fun hm => hfresh (hsub h hm),
      fun x hx => List.mem_cons_of_mem _ (hsub x hx)⟩
  have happ : ∀ l0 : List String, l0.Nodup → h ∉ l0 → (∀ x ∈ l0, x ∈ h :: S) →
      (l0 ++ [h]).Nodup ∧ ∀ x ∈ l0 ++ [h], x ∈ h :: S := by
    intro l0 hnd hnm hsub
    refine ⟨nodup_append_singleton l0 h hnd hnm, ?_⟩
    intro x hx
    rcases List.mem_append.mp hx with hx | hx
    · exact hsub x hx
    · simp at hx
      subst hx
      exact List.mem_cons_self _ _
  rcases dget_groupAppendU_cases (groupAppendU gs g1 h) g2 h g with hc | ⟨heq, hc⟩
  · rw [hc] at hl
    rcases dget_groupAppendU_cases gs g1 h g with hc' | ⟨heq', hc'⟩
    · rw [hc'] at hl
      obtain ⟨hnd, hnm, hsub⟩ := hold g l hl
      exact ⟨hnd, hsub⟩
    · subst heq'
      rw [hl] at hc'
      have hl2 : l = (dget gs g1).getD [] ++ [h] := Option.some.inj hc'
      subst hl2
      cases hg : dget gs g1 with
      | none =>
        simp only [hg, Option.getD_none, List.nil_append]
        exact ⟨List.nodup_singleton h, by simp⟩
      | some l0 =>
        simp only [Option.getD_some]
        obtain ⟨hnd, hnm, hsub⟩ := hold g1 l0 hg
        exact happ l0 hnd hnm hsub
  · subst heq
    rw [hl] at hc
    have hl2 : l = (dget (groupAppendU gs g1 h) g2).getD [] ++ [h] := Option.some.inj hc
    subst hl2
    rw [dget_groupAppendU_ne gs g1 g2 h hne]
    cases hg : dget gs g2 with
    | none =>
      simp only [Option.getD_none, List.nil_append]
      exact ⟨List.nodup_singleton h, by simp⟩
    | some l0 =>
      simp only [Option.getD_some]
      obtain ⟨hnd, hnm, hsub⟩ := hold g2 l0 hg
      exact happ l0 hnd hnm hsub

theorem foldE_addRole_groupsBounded (x : String) (roles : List String)
    (S : List String) (gs gs' : List (String × List String))
    (hf : foldE (addRoleStep x) gs roles = some gs') (hx : x ∈ S)
    (hb : groupsBounded S gs) : groupsBounded S gs' := by
  induction roles generalizing gs with
  | nil =>
    unfold foldE at hf
    rw [← Option.some.inj hf]
    exact hb
  | cons r roles ih =>
    unfold foldE addRoleStep at hf
    by_cases hg : roleGroup r = "_meta"
    · rw [if_pos hg] at hf
      cases hf
    · rw [if_neg hg] at hf
      exact ih _ hf (groupsBounded_appendC S _ _ _ hb hx)

theorem processNode_groupsBounded (rid cid : String) (st : BState) (n : NodeObj)
    (st' : BState) (hs : processNode rid cid st n = some st')
    (hfresh : validNode n → n.hostname ∉ st.api_hostnames)
    (hb : groupsBounded st.api_hostnames st.inv.groups) :
    groupsBounded st'.api_hostnames st'.inv.groups := by
  by_cases hval : validNode n
  · obtain ⟨gs3, hfold, hst⟩ := processNode_some_elim rid cid st n st' hval hs
    subst hst
    refine foldE_addRole_groupsBounded n.hostname n.roles _ _ gs3 hfold
      (List.mem_cons_self _ _) ?_
    exact groupsBounded_two_appendU st.api_hostnames st.inv.groups n.hostname
      ("region_" ++ rid) ("cluster_" ++ cid) hb (hfresh hval)
      (region_group_ne_cluster_group rid cid)
  · have hskip : processNode rid cid st n = some st := by
      apply processNode_invalid
      unfold validNode at hval
      push_neg at hval
      by_cases hh : n.hostname = ""
      · exact Or.inl hh
      · exact Or.inr (hval hh)
    rw [hskip] at hs
    rw [← Option.some.inj hs]
    exact hb

theorem foldE_nodeStep_groupsBounded (l : List (String × String × NodeObj))
    (st st' : BState) (hf : foldE nodeStep st l = some st')
    (hdisj : ∀ h0 ∈ validHostnames l, h0 ∉ st.api_hostnames)
    (hnd : (validHostnames l).Nodup)
    (hb : groupsBounded st.api_hostnames st.inv.groups) :
    groupsBounded st'.api_hostnames st'.inv.groups := by
  induction l generalizing st with
  | nil =>
    unfold foldE at hf
    rw [← Option.some.inj hf]
    exact hb
  | cons o l ih =>
    rw [foldE_cons] at hf
    cases hso : nodeStep st o with
    | none => rw [hso] at hf; cases hf
    | some st1 =>
      rw [hso] at hf
      have hso' : processNode o.1 o.2.1 st o.2.2 = some st1 := hso
      by_cases hval : validNode o.2.2
      · have hvh : validHostnames (o :: l) = o.2.2.hostname :: validHostnames l := by
          simp [validHostnames, List.filter_cons, hval]
        rw [hvh] at hdisj hnd
        have hb1 := processNode_groupsBounded o.1 o.2.1 st o.2.2 st1 hso'
          (fun _ => hdisj _ (List.mem_cons_self _ _)) hb
        obtain ⟨gs3, hfold, hst⟩ := processNode_some_elim o.1 o.2.1 st o.2.2 st1 hval hso'
        refine ih st1 hf ?_ (List.Nodup.of_cons hnd) hb1
        intro h0 hh0
        rw [hst]
        simp only [List.mem_cons]
        rintro (he | hmem)
        · rw [he] at hh0
          exact (List.nodup_cons.mp hnd).1 hh0
        · exact hdisj h0 (List.mem_cons_of_mem _ hh0) hmem
      · have hvh : validHostnames (o :: l) = validHostnames l := by
          simp [validHostnames, List.filter_cons, hval]
        rw [hvh] at hdisj hnd
        have hst1 : st1 = st := by
          have hskip : processNode o.1 o.2.1 st o.2.2 = some st := by
            apply processNode_invalid
            unfold validNode at hval
            push_neg at hval
            by_cases hh : o.2.2.hostname = ""
            · exact Or.inl hh
            · exact Or.inr (hval hh)
          rw [hskip] at hso'
          exact Option.some.inj hso'.symm
        subst hst1
        exact ih st1 hf hdisj hnd hb

/-- Merging the static file preserves duplicate-freedom of every group
list (the static path appends with a membership check). -/
theorem mergeStatic_groupsNodup (sg : List (String × List String))
    (sv : List (String × List (String × String))) (st st' : BState)
    (hm : mergeStatic sg sv st = some st')
    (hn : ∀ g l, dget st.inv.groups g = some l → l.Nodup) :
    ∀ g l, dget st'.inv.groups g = some l → l.Nodup := by
  unfold mergeStatic at hm
  refine foldE_pres (fun s => ∀ g l, dget s.inv.groups g = some l → l.Nodup)
    _ sg st st' hm ?_ hn
  intro t p t' hpmem hf hpt
  refine foldE_pres (fun s => ∀ g l, dget s.inv.groups g = some l → l.Nodup)
    (staticHostStep sv p.1) p.2 t t' hf ?_ hpt
  intro u x u' hx hsu hpu
  rcases staticHostStep_some_elim sv p.1 u x u' hsu with ⟨_, rfl⟩ | ⟨_, _, hst⟩
  · exact hpu
  · subst hst
    intro g l hl
    rcases dget_groupAppendC_cases u.inv.groups p.1 x g with hc | ⟨heq, hc, hnm⟩
    · exact hpu g l (by rw [← hc]; exact hl)
    · subst heq
      rw [hl] at hc
      have hl2 : l = (dget u.inv.groups p.1).getD [] ++ [x] := Option.some.inj hc
      subst hl2
      cases hg : dget u.inv.groups p.1 with
      | none => simp [hg, List.nodup_singleton]
      | some l0 =>
        rw [hg] at hnm
        simp only [Option.getD_some] at hnm
        simp only [Option.getD_some]
        exact nodup_append_singleton l0 x (hpu p.1 l0 hg) hnm

/-- C4 (amended): provided no two valid node occurrences of the walk share
a hostname, every group of the final document — region, cluster, role and
static groups alike — has a duplicate-free `hosts` list (each hostname at
most once; insertion order is inherent to the list representation).  The
original claim's "in particular when the same valid hostname is returned
by the API more than once" clause is refuted by `C4_counterexample`: the
region/cluster appends of the source carry no membership check. -/
theorem C4_nodup_of_distinct (api : Api) (sg : List (String × List String))
    (sv : List (String × List (String × String))) (doc : Inv)
    (hnd : (validHostnames (occs api)).Nodup)
    (hbuild : buildInventory api sg sv = some doc) :
    ∀ g l, dget doc.groups g = some l → l.Nodup := by
  obtain ⟨stW, stF, hw, hms, hdoc⟩ := buildInventory_some_elim api sg sv doc hbuild
  subst hdoc
  rw [apiWalk_eq_foldE] at hw
  have hbW := foldE_nodeStep_groupsBounded (occs api) initState stW hw
    (by intro h0 _ hc; exact List.not_mem_nil h0 hc) hnd
    (by intro g l hl; cases hl)
  exact mergeStatic_groupsNodup sg sv stW stF hms (fun g l hl => (hbW g l hl).1)

/-- Witness for the amended C4 at a concrete input with distinct
hostnames. -/
theorem C4_nodup_of_distinct_witness :
    ∃ doc, buildInventory
        ⟨[⟨"r1"⟩], fun _ => [⟨"c1"⟩], fun _ =>
          [⟨"web1", "10.0.0.1", "n1", ["web"], "", []⟩,
           ⟨"web2", "10.0.0.2", "n2", ["web"], "", []⟩]⟩
        [("extra", ["web1", "web3"])] [] = some doc ∧
      ∀ g l, dget doc.groups g = some l → l.Nodup := by
  refine ⟨_, rfl, ?_⟩
  exact C4_nodup_of_distinct
    ⟨[⟨"r1"⟩], fun _ => [⟨"c1"⟩], fun _ =>
      [⟨"web1", "10.0.0.1", "n1", ["web"], "", []⟩,
       ⟨"web2", "10.0.0.2", "n2", ["web"], "", []⟩]⟩
    [("extra", ["web1", "web3"])] [] _ (by decide) rfl

/-- Counterexample to C4 as stated: the same valid hostname returned twice
in one cluster appears twice in the `cluster_c9` (and `region_r9`) group
list, because the source's region/cluster appends have no membership
check. -/
theorem C4_counterexample :
    ∃ doc, buildInventory
        ⟨[⟨"r9"⟩], fun _ => [⟨"c9"⟩], fun _ =>
          [⟨"dup1", "10.1.1.1", "m1", [], "", []⟩,
           ⟨"dup1", "10.1.1.2", "m2", [], "", []⟩]⟩ [] [] = some doc ∧
      dget doc.groups "cluster_c9" = some ["dup1", "dup1"] ∧
      ¬ (["dup1", "dup1"] : List String).Nodup :=
  ⟨_, rfl, by decide, by decide⟩

/-- C3 (amended): when a hostname has exactly one valid occurrence in the
API walk and also appears in the static file, its `_meta.hostvars` entry
is the API-derived record — the static file's variables for it do not
appear — and every group's hosts list contains it at most once.  The
original "exactly once in each group's hosts list" for an arbitrary API
response is refuted by `C3_counterexample` (duplicate valid occurrences of
the hostname duplicate it in its region/cluster groups). -/
theorem C3_api_precedence (api : Api) (sg : List (String × List String))
    (sv : List (String × List (String × String))) (doc : Inv) (h rid cid : String)
    (n : NodeObj) (pre post : List (String × String × NodeObj))
    (hocc : occs api = pre ++ (rid, cid, n) :: post)
    (hn : n.hostname = h) (hval : validNode n)
    (hpre : ∀ o ∈ pre, o.2.2.hostname = h → ¬ validNode o.2.2)
    (hpost : ∀ o ∈ post, o.2.2.hostname = h → ¬ validNode o.2.2)
    (hstat : ∃ p ∈ sg, h ∈ p.2)
    (hbuild : buildInventory api sg sv = some doc) :
    dget doc.hostvars h = some (HostVarsV.api (apiVarsOf rid cid n)) ∧
      ∀ g l, dget doc.groups g = some l → l.count h ≤ 1 := by
  obtain ⟨stW, stF, hw, hms, hdoc⟩ := buildInventory_some_elim api sg sv doc hbuild
  subst hdoc
  subst hn
  rw [apiWalk_eq_foldE, hocc, foldE_append] at hw
  cases hpre0 : foldE nodeStep initState pre with
  | none => rw [hpre0] at hw; cases hw
  | some st0 =>
    rw [hpre0, Option.some_bind', foldE_cons] at hw
    cases hstep : nodeStep st0 (rid, cid, n) with
    | none => rw [hstep] at hw; cases hw
    | some st1 =>
      rw [hstep] at hw
      have hstep' : processNode rid cid st0 n = some st1 := hstep
      have hu : dget st0.inv.hostvars n.hostname = none ∧
          absentAll n.hostname st0.inv.groups ∧ n.hostname ∉ st0.api_hostnames := by
        refine foldE_pres (fun s => dget s.inv.hostvars n.hostname = none ∧
          absentAll n.hostname s.inv.groups ∧ n.hostname ∉ s.api_hostnames)
          nodeStep pre initState st0 hpre0 ?_ ?_
        · intro t o t' ho hst hp
          exact nodeStep_pres_untouched t t' o n.hostname hst (hpre o ho) hp
        · refine ⟨rfl, ?_, ?_⟩
          · intro g hm
            obtain ⟨l, hl, _⟩ := hm
            cases hl
          · intro hc
            cases hc
      have hself := processNode_self_facts rid cid st0 n st1 hval hstep'
      have hcnt1 := processNode_self_atMostOnce rid cid st0 n st1 hval hstep' hu.2.1
      have hP : dget stW.inv.hostvars n.hostname =
          some (HostVarsV.api (apiVarsOf rid cid n)) ∧
          n.hostname ∈ stW.api_hostnames ∧ atMostOnce n.hostname stW.inv.groups := by
        refine foldE_pres (fun s => dget s.inv.hostvars n.hostname =
          some (HostVarsV.api (apiVarsOf rid cid n)) ∧
          n.hostname ∈ s.api_hostnames ∧ atMostOnce n.hostname s.inv.groups)
          nodeStep post st1 stW hw ?_ ⟨hself.1, hself.2, hcnt1⟩
        intro t o t' ho hst hp
        exact nodeStep_pres_self t t' o n.hostname _ hst (hpost o ho) hp
      have hF := mergeStatic_pres_self sg sv stW stF n.hostname _ hms hP
      exact ⟨hF.1, fun g l hl => hF.2.2 g l hl⟩

/-- Witness for the amended C3: one valid API occurrence of `web1`, which
also appears in the static file with variables; the document keeps the
API record. -/
theorem C3_api_precedence_witness :
    ∃ doc, buildInventory
        ⟨[⟨"r1"⟩], fun _ => [⟨"c1"⟩], fun _ =>
          [⟨"web1", "10.0.0.1", "n1", ["web"], "", []⟩]⟩
        [("extra", ["web1"])] [("web1", [("env", "prod")])] = some doc ∧
      dget doc.hostvars "web1" =
        some (HostVarsV.api (apiVarsOf "r1" "c1"
          ⟨"web1", "10.0.0.1", "n1", ["web"], "", []⟩)) := by
  refine ⟨_, rfl, ?_⟩
  exact (C3_api_precedence
    ⟨[⟨"r1"⟩], fun _ => [⟨"c1"⟩], fun _ =>
      [⟨"web1", "10.0.0.1", "n1", ["web"], "", []⟩]⟩
    [("extra", ["web1"])] [("web1", [("env", "prod")])] _ "web1" "r1" "c1"
    ⟨"web1", "10.0.0.1", "n1", ["web"], "", []⟩ [] []
    (by decide) rfl (by decide) (by intro o ho; cases ho) (by intro o ho; cases ho)
    ⟨("extra", ["web1"]), by decide⟩ rfl).1

/-- Counterexample to C3 as stated: a hostname returned by two valid API
nodes and also present in the static file is listed twice in its cluster
group, not exactly once. -/
theorem C3_counterexample :
    ∃ doc, buildInventory
        ⟨[⟨"r3"⟩], fun _ => [⟨"c3"⟩], fun _ =>
          [⟨"web9", "10.3.3.1", "k1", [], "", []⟩,
           ⟨"web9", "10.3.3.2", "k2", [], "", []⟩]⟩
        [("extra", ["web9"])] [("web9", [("env", "prod")])] = some doc ∧
      dget doc.groups "cluster_c3" = some ["web9", "web9"] :=
  ⟨_, rfl, by decide⟩

theorem splitEq1_eq_none (l : List Char) (h : '=' ∉ l) : splitEq1 l = none := by
  induction l with
  | nil => rfl
  | cons c cs ih =>
    unfold splitEq1
    rw [if_neg (by intro he; exact h (he ▸ List.mem_cons_self c cs))]
    rw [ih (fun hm => h (List.mem_cons_of_mem c hm))]

/-- C8: `get_static_inventory` returns two empty mappings for a missing
file; a token without `=` after a hostname adds no variable; a non-header
line processed while no group is current (in particular any host line
before the first `[name]` header) leaves the parser state — hence both
returned mappings — unchanged; consequently a file with no header line at
all parses to two empty mappings. -/
theorem C8_parser_edges :
    getStaticInventory none = ([], []) ∧
    (∀ hostname hv t, '=' ∉ String.data t → varStep hostname hv t = hv) ∧
    (∀ st raw, st.current = none → ¬ isHeaderLine raw → stepLine st raw = st) ∧
    (∀ lines, (∀ raw ∈ lines, ¬ isHeaderLine raw) →
      getStaticInventory (some lines) = ([], [])) := by
  have h2 : ∀ hostname hv t, '=' ∉ String.data t → varStep hostname hv t = hv := by
    intro hostname hv t ht
    unfold varStep
    rw [splitEq1_eq_none t.data ht]
  have h3 : ∀ st raw, st.current = none → ¬ isHeaderLine raw → stepLine st raw = st := by
    intro st raw hcur hhead
    unfold stepLine
    split
    · rfl
    · rename_i c cs hd
      split_ifs with hc1 hc2 hc3
      · rfl
      · rfl
      · exact absurd ⟨c, cs, hd, hc3.1, hc3.2⟩ hhead
      · rw [hcur]
  refine ⟨rfl, h2, h3, ?_⟩
  intro lines hl
  have hfold : lines.foldl stepLine ⟨[], [], none⟩ = ⟨[], [], none⟩ := by
    induction lines with
    | nil => rfl
    | cons raw ls ih =>
      rw [List.foldl_cons, h3 ⟨[], [], none⟩ raw rfl (hl raw (List.mem_cons_self _ _))]
      exact ih (fun r hr => hl r (List.mem_cons_of_mem _ hr))
  show ((lines.foldl stepLine ⟨[], [], none⟩).groups,
    (lines.foldl stepLine ⟨[], [], none⟩).hostvars) = ([], [])
  rw [hfold]

/-- Witness for C8 at concrete inputs: the missing-file case, an `=`-less
token, and a pre-header host line. -/
theorem C8_parser_edges_witness :
    getStaticInventory none = ([], []) ∧
    varStep "h1" [] "noequals" = [] ∧
    stepLine ⟨[], [], none⟩ "h1 a=b" = ⟨[], [], none⟩ := by
  refine ⟨C8_parser_edges.1, ?_, ?_⟩
  · exact C8_parser_edges.2.1 "h1" [] "noequals" (by decide)
  · refine C8_parser_edges.2.2.1 ⟨[], [], none⟩ "h1 a=b" rfl ?_
    rintro ⟨c, cs, hd, hc, _⟩
    subst hc
    have hh : (pyStrip "h1 a=b").data.head? = some '[' := by rw [hd]; rfl
    revert hh
    decide

theorem memGroup_appendC_iff_ne (gs : List (String × List String)) (g g0 h x : String)
    (hne : x ≠ h) : memGroup (groupAppendC gs g0 x) g h ↔ memGroup gs g h :=
  ⟨memGroup_appendC_inv gs g g0 h x hne, memGroup_appendC_mono gs g g0 x h⟩

theorem memGroup_appendC_self_iff (gs : List (String × List String)) (g g0 h : String) :
    memGroup (groupAppendC gs g0 h) g h ↔ (memGroup gs g h ∨ g = g0) := by
  constructor
  · intro hm
    by_cases he : g = g0
    · exact Or.inr he
    · left
      obtain ⟨l, hl, hx⟩ := hm
      rw [dget_groupAppendC_ne gs g0 g h (fun hh => he hh.symm)] at hl
      exact ⟨l, hl, hx⟩
  · rintro (hm | he)
    · exact memGroup_appendC_mono _ _ _ _ _ hm
    · subst he
      exact memGroup_appendC_self _ _ _

theorem existsMemCons {α : Type} (a : α) (l : List α) (P : α → Prop) :
    (∃ x ∈ a :: l, P x) ↔ (P a ∨ ∃ x ∈ l, P x) := by
  constructor
  · rintro ⟨x, hx, hp⟩
    rcases List.mem_cons.mp hx with rfl | hx
    · exact Or.inl hp
    · exact Or.inr ⟨x, hx, hp⟩
  · rintro (hp | ⟨x, hx, hp⟩)
    · exact ⟨a, List.mem_cons_self a l, hp⟩
    · exact ⟨x, List.mem_cons_of_mem a hx, hp⟩

/-- Full effect of one static-merge host step on a hostname `h` that is not
API-sourced. -/
theorem staticHostStep_char (sv : List (String × List (String × String)))
    (g0 : String) (st : BState) (x : String) (st' : BState) (h : String)
    (hs : staticHostStep sv g0 st x = some st') (hna : h ∉ st.api_hostnames) :
    st'.api_hostnames = st.api_hostnames ∧
    (∀ g, memGroup st'.inv.groups g h ↔
      (memGroup st.inv.groups g h ∨ (x = h ∧ g = g0))) ∧
    (dget st'.inv.hostvars h =
      if x = h then
        match dget sv h with
        | some v => some (HostVarsV.static v)
        | none => dget st.inv.hostvars h
      else dget st.inv.hostvars h) := by
  rcases staticHostStep_some_elim sv g0 st x st' hs with ⟨hxin, rfl⟩ | ⟨hxout, hmeta, hst⟩
  · have hxh : x ≠ h := fun he => hna (he ▸ hxin)
    refine ⟨rfl, fun g => ?_, ?_⟩
    · simp [hxh]
    · rw [if_neg hxh]
  · subst hst
    refine ⟨rfl, fun g => ?_, ?_⟩
    · show memGroup (groupAppendC st.inv.groups g0 x) g h ↔ _
      by_cases hxh : x = h
      · subst hxh
        rw [memGroup_appendC_self_iff]
        simp
      · rw [memGroup_appendC_iff_ne st.inv.groups g g0 h x hxh]
        simp [hxh]
    · show dget (match dget sv x with
          | some v => dset st.inv.hostvars x (HostVarsV.static v)
          | none => st.inv.hostvars) h = _
      by_cases hxh : x = h
      · subst hxh
        rw [if_pos rfl]
        cases hsv : dget sv x with
        | some v =>
          simp only [hsv]
          exact dget_dset_self _ _ _
        | none => simp only [hsv]
      · rw [if_neg hxh]
        cases hsv : dget sv x with
        | some v =>
          simp only [hsv]
          exact dget_dset_ne _ _ _ _ hxh
        | none => simp only [hsv]

/-- Effect of one static group's host loop on a non-API hostname. -/
theorem foldE_staticHost_char (sv : List (String × List (String × String)))
    (g0 : String) (hosts : List String) (st st' : BState) (h : String)
    (hf : foldE (staticHostStep sv g0) st hosts = some st')
    (hna : h ∉ st.api_hostnames) :
    st'.api_hostnames = st.api_hostnames ∧
    (∀ g, memGroup st'.inv.groups g h ↔
      (memGroup st.inv.groups g h ∨ (g = g0 ∧ h ∈ hosts))) ∧
    (dget st'.inv.hostvars h =
      if h ∈ hosts then
        match dget sv h with
        | some v => some (HostVarsV.static v)
        | none => dget st.inv.hostvars h
      else dget st.inv.hostvars h) := by
  induction hosts generalizing st with
  | nil =>
    rw [show foldE (staticHostStep sv g0) st [] = some st from rfl] at hf
    rw [← Option.some.inj hf]
    refine ⟨rfl, fun g => by simp, by simp⟩
  | cons x hosts ih =>
    rw [foldE_cons] at hf
    cases hsx : staticHostStep sv g0 st x with
    | none => rw [hsx] at hf; cases hf
    | some st1 =>
      rw [hsx] at hf
      obtain ⟨ha1, hg1, hv1⟩ := staticHostStep_char sv g0 st x st1 h hsx hna
      have hna1 : h ∉ st1.api_hostnames := by rw [ha1]; exact hna
      obtain ⟨ha2, hg2, hv2⟩ := ih st1 hf hna1
      refine ⟨ha2.trans ha1, fun g => ?_, ?_⟩
      · rw [hg2 g, hg1 g]
        constructor
        · rintro ((hm | ⟨hxh, he⟩) | ⟨he, hmem⟩)
          · exact Or.inl hm
          · exact Or.inr ⟨he, hxh ▸ List.mem_cons_self h hosts⟩
          · exact Or.inr ⟨he, List.mem_cons_of_mem x hmem⟩
        · rintro (hm | ⟨he, hmem⟩)
          · exact Or.inl (Or.inl hm)
          · rcases List.mem_cons.mp hmem with hc | hc
            · exact Or.inl (Or.inr ⟨hc.symm, he⟩)
            · exact Or.inr ⟨he, hc⟩
      · rw [hv2]
        by_cases hmem : h ∈ hosts
        · rw [if_pos hmem, if_pos (List.mem_cons_of_mem x hmem)]
          cases hsv : dget sv h with
          | some v => rfl
          | none =>
            simp only [hsv]
            rw [hv1]
            by_cases hxh : x = h
            · rw [if_pos hxh]
              simp only [hsv]
            · rw [if_neg hxh]
        · rw [if_neg hmem, hv1]
          by_cases hxh : x = h
          · rw [if_pos hxh, if_pos (hxh ▸ List.mem_cons_self x hosts)]
          · rw [if_neg hxh, if_neg ?_]
            intro hc
            rcases List.mem_cons.mp hc with hc | hc
            · exact hxh hc.symm
            · exact hmem hc

/-- Full characterization of the static merge for a hostname absent from
`api_hostnames`: it ends up in exactly the groups the static file lists it
under, and its hostvars entry is the parsed static variables when any
exist. -/
theorem mergeStatic_char (sg : List (String × List String))
    (sv : List (String × List (String × String))) (st st' : BState) (h : String)
    (hf : mergeStatic sg sv st = some st') (hna : h ∉ st.api_hostnames) :
    st'.api_hostnames = st.api_hostnames ∧
    (∀ g, memGroup st'.inv.groups g h ↔
      (memGroup st.inv.groups g h ∨ memGroupL sg g h)) ∧
    (dget st'.inv.hostvars h =
      if ∃ p ∈ sg, h ∈ p.2 then
        match dget sv h with
        | some v => some (HostVarsV.static v)
        | none => dget st.inv.hostvars h
      else dget st.inv.hostvars h) := by
  unfold mergeStatic at hf
  induction sg generalizing st with
  | nil =>
    rw [← Option.some.inj hf]
    refine ⟨rfl, fun g => by simp [memGroupL], by simp⟩
  | cons p rest ih =>
    rw [foldE_cons] at hf
    cases hsp : foldE (staticHostStep sv p.1) st p.2 with
    | none => rw [hsp] at hf; cases hf
    | some st1 =>
      rw [hsp] at hf
      obtain ⟨ha1, hg1, hv1⟩ := foldE_staticHost_char sv p.1 p.2 st st1 h hsp hna
      have hna1 : h ∉ st1.api_hostnames := by rw [ha1]; exact hna
      obtain ⟨ha2, hg2, hv2⟩ := ih st1 hf hna1
      refine ⟨ha2.trans ha1, fun g => ?_, ?_⟩
      · rw [hg2 g, hg1 g]
        unfold memGroupL
        rw [existsMemCons p rest (fun q => q.1 = g ∧ h ∈ q.2)]
        constructor
        · rintro ((hm | ⟨he, hmem⟩) | hrest)
          · exact Or.inl hm
          · exact Or.inr (Or.inl ⟨he.symm, hmem⟩)
          · exact Or.inr (Or.inr hrest)
        · rintro (hm | (⟨he, hmem⟩ | hrest))
          · exact Or.inl (Or.inl hm)
          · exact Or.inl (Or.inr ⟨he.symm, hmem⟩)
          · exact Or.inr hrest
      · rw [hv2]
        by_cases hrest : ∃ q ∈ rest, h ∈ q.2
        · rw [if_pos hrest,
            if_pos ((existsMemCons p rest (fun q => h ∈ q.2)).mpr (Or.inr hrest))]
          cases hsv : dget sv h with
          | some v => rfl
          | none =>
            simp only [hsv]
            rw [hv1]
            by_cases hmem : h ∈ p.2
            · rw [if_pos hmem]
              simp only [hsv]
            · rw [if_neg hmem]
        · rw [if_neg hrest, hv1]
          by_cases hmem : h ∈ p.2
          · rw [if_pos hmem,
              if_pos ((existsMemCons p rest (fun q => h ∈ q.2)).mpr (Or.inl hmem))]
          · rw [if_neg hmem, if_neg ?_]
            intro hc
            rcases (existsMemCons p rest (fun q => h ∈ q.2)).mp hc with hc | hc
            · exact hmem hc
            · exact hrest hc

/-- C7: a hostname parsed from the static file that no node of the API
walk carries keeps its parsed `key=value` variables verbatim (string
values, or no entry when the file gave it none) and is listed in exactly
the groups under whose headers it appears in the static file. -/
theorem C7_static_only (api : Api) (file : Option (List String))
    (sg : List (String × List String))
    (sv : List (String × List (String × String))) (doc : Inv) (h : String)
    (_hparse : getStaticInventory file = (sg, sv))
    (hapi : ∀ o ∈ occs api, o.2.2.hostname ≠ h)
    (hstat : ∃ p ∈ sg, h ∈ p.2)
    (hbuild : buildInventory api sg sv = some doc) :
    dget doc.hostvars h = (dget sv h).map HostVarsV.static ∧
    ∀ g, memGroup doc.groups g h ↔ memGroupL sg g h := by
  obtain ⟨stW, stF, hw, hms, hdoc⟩ := buildInventory_some_elim api sg sv doc hbuild
  subst hdoc
  rw [apiWalk_eq_foldE] at hw
  have hu : dget stW.inv.hostvars h = none ∧ absentAll h stW.inv.groups ∧
      h ∉ stW.api_hostnames := by
    refine foldE_pres (fun s => dget s.inv.hostvars h = none ∧
      absentAll h s.inv.groups ∧ h ∉ s.api_hostnames) nodeStep (occs api)
      initState stW hw ?_ ?_
    · intro t o t' ho hst hp
      exact nodeStep_pres_untouched t t' o h hst
        (fun he => absurd he (hapi o ho)) hp
    · refine ⟨rfl, ?_, ?_⟩
      · intro g hm
        obtain ⟨l, hl, _⟩ := hm
        cases hl
      · intro hc
        cases hc
  obtain ⟨_, hg, hv⟩ := mergeStatic_char sg sv stW stF h hms hu.2.2
  constructor
  · rw [hv, if_pos hstat]
    cases hsv : dget sv h with
    | some v => simp [hsv]
    | none => simp [hsv, hu.1]
  · intro g
    rw [hg g]
    constructor
    · rintro (hm | hm)
      · exact absurd hm (hu.2.1 g)
      · exact hm
    · exact Or.inr

/-- Witness for C7: the spec's `controlplane` example — static-only host
`cp1` keeps both parsed variables and is listed in `controlplane`. -/
theorem C7_static_only_witness :
    ∃ doc, buildInventory ⟨[], fun _ => [], fun _ => []⟩
        [("controlplane", ["cp1"])]
        [("cp1", [("ansible_host", "10.0.0.5"), ("env", "prod")])] = some doc ∧
      dget doc.hostvars "cp1" =
        some (HostVarsV.static [("ansible_host", "10.0.0.5"), ("env", "prod")]) ∧
      memGroup doc.groups "controlplane" "cp1" := by
  refine ⟨_, rfl, ?_, ?_⟩
  · exact (C7_static_only ⟨[], fun _ => [], fun _ => []⟩
      (some ["[controlplane]", "cp1 ansible_host=10.0.0.5 env=prod"])
      [("controlplane", ["cp1"])]
      [("cp1", [("ansible_host", "10.0.0.5"), ("env", "prod")])] _ "cp1"
      (by decide) (by intro o ho; cases ho)
      ⟨("controlplane", ["cp1"]), List.mem_cons_self _ _, List.mem_cons_self _ _⟩
      rfl).1.trans (by decide)
  · exact ((C7_static_only ⟨[], fun _ => [], fun _ => []⟩
      (some ["[controlplane]", "cp1 ansible_host=10.0.0.5 env=prod"])
      [("controlplane", ["cp1"])]
      [("cp1", [("ansible_host", "10.0.0.5"), ("env", "prod")])] _ "cp1"
      (by decide) (by intro o ho; cases ho)
      ⟨("controlplane", ["cp1"]), List.mem_cons_self _ _, List.mem_cons_self _ _⟩
      rfl).2 "controlplane").mpr
      ⟨("controlplane", ["cp1"]), List.mem_cons_self _ _, rfl, List.mem_cons_self _ _⟩

/-- C9: for every argument vector, `main` prints the full inventory
document as JSON with 2-space indentation when `--list` is present or when
neither flag is present (the default is identical to list mode), and when
`--host` is present without `--list` it prints the serialization of the
empty object — a text identical to the empty object's 2-space-indented
serialization. -/
theorem C9_main_modes (argv : List String) (api : Api)
    (sg : List (String × List String))
    (sv : List (String × List (String × String))) :
    (argv.contains "--list" = true →
      mainOutput argv api sg sv =
        (buildInventory api sg sv).map (fun inv => dumpJson (some 2) 0 (invToJson inv))) ∧
    (argv.contains "--list" = false → argv.contains "--host" = false →
      mainOutput argv api sg sv =
        (buildInventory api sg sv).map (fun inv => dumpJson (some 2) 0 (invToJson inv))) ∧
    (argv.contains "--list" = false → argv.contains "--host" = true →
      mainOutput argv api sg sv = some (dumpJson (some 2) 0 (Json.obj [])) ∧
        dumpJson (some 2) 0 (Json.obj []) = dumpJson none 0 (Json.obj [])) := by
  refine ⟨?_, ?_, ?_⟩
  · intro h1
    unfold mainOutput
    rw [h1, if_pos rfl]
  · intro h1 h2
    unfold mainOutput
    rw [h1, h2, if_neg (by decide), if_neg (by decide)]
  · intro h1 h2
    refine ⟨?_, rfl⟩
    unfold mainOutput
    rw [h1, h2, if_neg (by decide), if_pos rfl]
    rfl

/-- Witness for C9: `--host` alone prints exactly the two-character empty
object. -/
theorem C9_main_modes_witness :
    mainOutput ["--host"] ⟨[], fun _ => [], fun _ => []⟩ [] [] = some "\x7b\x7d" := by
  have h := (C9_main_modes ["--host"] ⟨[], fun _ => [], fun _ => []⟩ [] []).2.2
    (by decide) (by decide)
  rw [h.1]
  rfl

/-- Counterexample to C5 as stated: the first node is invalid (empty
`ip_address`) and carries hostname `web1`, yet `web1` does appear in the
`region_r1` group and in `_meta.hostvars`, because a second, valid node
carries the same hostname. -/
theorem C5_counterexample :
    ¬ validNode ⟨"web1", "", "x0", [], "", []⟩ ∧
    ∃ doc, buildInventory
        ⟨[⟨"r1"⟩], fun _ => [⟨"c1"⟩], fun _ =>
          [⟨"web1", "", "x0", [], "", []⟩,
           ⟨"web1", "10.0.0.1", "x1", [], "", []⟩]⟩ [] [] = some doc ∧
      memGroup doc.groups "region_r1" "web1" ∧
      (dget doc.hostvars "web1").isSome :=
  ⟨by decide, _, rfl, by decide, by decide⟩

end Hosting
